import Mathlib

/-!
Verification of the Byzantine Generals ("oral messages") simulator.

The development is a shallow embedding of `src/main.cpp`:

* `Value`, `Node`, `Path` mirror the global definitions (`ONE`, `ZERO`,
  `UNKNOWN`, `FAULTY`, `struct Node`, `typedef std::string Path`).
* `NodeMap` models `std::map<Path, Node>` as an association list (the map is
  only ever used through keyed lookup, so entry order is irrelevant);
  `NodeMap.getOrInsert` models `operator[]`, which default-inserts a
  `Node(FAULTY, FAULTY)` entry on a missing key.
* `Traits` models the policy class; `refTraits` is the hard-coded instance
  from the source (`SOURCE = 3`, `M = 2`, `N = 7`, faulty source and faulty
  participant 2, default value `ONE`).
* `genChildren` / `genLoop` model `Process::GenerateChildren`, building the
  static `mChildren` and `mPathsByRank` maps.
* `sendOne` / `sendMessages` / `runRound` / `runRounds` model
  `Process::SendMessages`, `Process::ReceiveMessage` and the round loop of
  `main`.
* `decideProc` models `Process::Decide` (with `getMajority` for
  `Process::GetMajority`); `decideChecked` is the same computation with every
  `mNodes` lookup required to hit an existing entry, so that the
  "missing node" fatal condition of the specification is observable.
-/

namespace Byz

inductive Value where
  | one
  | zero
  | unknown
  | faulty
deriving DecidableEq, Repr

/-- A node of the message tree: `struct Node { char input_value; char output_value; }`. -/
structure Node where
  input_value : Value
  output_value : Value
deriving DecidableEq, Repr

/-- The default-constructed node `Node(FAULTY, FAULTY)` that `std::map::operator[]`
inserts on a missing key. -/
def faultyNode : Node := ⟨Value.faulty, Value.faulty⟩

/-- `typedef std::string Path`: a path is the list of process ids the
information came through (the source encodes ids as digit characters). -/
abbrev Path := List Nat

/-- `std::map<Path, Node>`, as an association list with unique keys. -/
abbrev NodeMap := List (Path × Node)

def NodeMap.find : NodeMap → Path → Option Node
  | [], _ => none
  | e :: rest, p => if e.1 = p then some e.2 else NodeMap.find rest p

def NodeMap.set : NodeMap → Path → Node → NodeMap
  | [], p, nd => [(p, nd)]
  | e :: rest, p, nd => if e.1 = p then (p, nd) :: rest else e :: NodeMap.set rest p nd

/-- `mNodes[p]` (`std::map::operator[]`): return the entry, inserting a
default `Node(FAULTY, FAULTY)` when the key is missing. -/
def NodeMap.getOrInsert (nm : NodeMap) (p : Path) : Node × NodeMap :=
  match NodeMap.find nm p with
  | some nd => (nd, nm)
  | none => (faultyNode, NodeMap.set nm p faultyNode)

def emptyMap : NodeMap := []

/-- The static topology: `mChildren` (with entry presence tracked, as in
`std::map`) and `mPathsByRank`. -/
structure Topo where
  children : Path → Option (List Path)
  pathsByRank : Nat → Nat → List Path

/-- `mPathsByRank[rank][source].push_back(p)`. -/
def Topo.pushPath (st : Topo) (r i : Nat) (p : Path) : Topo :=
  { st with pathsByRank := fun r' i' =>
      if r' = r ∧ i' = i then st.pathsByRank r i ++ [p] else st.pathsByRank r' i' }

/-- `mChildren[key].push_back(c)` (`operator[]` creates an empty vector on a
missing key, then the push appends). -/
def Topo.pushChild (st : Topo) (key c : Path) : Topo :=
  { st with children := fun q =>
      if q = key then some ((st.children key).getD [] ++ [c]) else st.children q }

def emptyTopo : Topo := ⟨fun _ => none, fun _ _ => []⟩

/-- The `Traits` policy class of the source.  `mN` bounds the recipient loop,
`mM` is the recursion depth, `mSource` the commander id; `getSourceValue`,
`getValue`, `getDefault` and `isFaulty` are the four policy methods. -/
structure Traits where
  mSource : Nat
  mM : Nat
  mN : Nat
  getSourceValue : Node
  getValue : Value → Nat → Nat → Path → Value
  getDefault : Value
  isFaulty : Nat → Bool

/-- `Traits::GetValue` of the hard-coded scenario: the faulty source sends
ZERO to odd-id receivers and ONE to even-id receivers; faulty participant 2
always sends ONE; everyone else forwards the intended value. -/
def refGetValue (value : Value) (sender destination : Nat) (_path : Path) : Value :=
  if sender = 3 then (if destination % 2 = 1 then Value.zero else Value.one)
  else if sender = 2 then Value.one
  else value

/-- The hard-coded configuration of the source file:
`N = 7`, `M = 2`, `SOURCE = 3`, source value `Node(ZERO, UNKNOWN)`,
tie-break default `ONE`, faulty participants 3 (the source) and 2. -/
def refTraits : Traits :=
  { mSource := 3
    mM := 2
    mN := 7
    getSourceValue := ⟨Value.zero, Value.unknown⟩
    getValue := refGetValue
    getDefault := Value.one
    isFaulty := fun p => p = 3 || p = 2 }

/-!
### Topology generation (`Process::GenerateChildren`)

The C++ recursion is driven by `rank`, terminating because `rank` grows up to
`m`; here the structurally decreasing argument is `d = m - rank`, with
`rank < m` in the source corresponding to `d ≠ 0`.  The `vector<bool> ids`
(passed by value) becomes a function `Nat → Bool`, and the ascending loop over
`i ∈ [0, n)` becomes `genLoop` over `List.range n`, with the recursive call
passed in as `gen`.
-/

def genLoop (gen : (Nat → Bool) → Nat → Path → Topo → Topo)
    (ids' : Nat → Bool) (cp : Path) : List Nat → Topo → Topo
  | [], st => st
  | i :: rest, st =>
    if ids' i then
      genLoop gen ids' cp rest ((gen ids' i cp st).pushChild cp (cp ++ [i]))
    else
      genLoop gen ids' cp rest st

def genChildren (n : Nat) : Nat → (Nat → Bool) → Nat → Path → Nat → Topo → Topo
  | d, ids, source, currentPath, rank, st =>
    let ids' := fun i => if i = source then false else ids i
    let cp := currentPath ++ [source]
    let st1 := st.pushPath rank source cp
    match d with
    | 0 => st1
    | e + 1 =>
      genLoop (fun ids'' src cp' st' => genChildren n e ids'' src cp' (rank + 1) st')
        ids' cp (List.range n) st1

/-- The static topology built by the first `Process` constructor:
`GenerateChildren(M, N, vector<bool>(N, true))` with the default arguments
`source = mTraits.mSource`, `current_path = ""`, `rank = 0`. -/
def genTopo (n m source : Nat) : Topo :=
  genChildren n m (fun i => decide (i < n)) source [] 0 emptyTopo

/-!
### Messaging (`Process::SendMessages`, `Process::ReceiveMessage`, `main`)
-/

/-- The vector of processes: the node map of process `i` sits at index `i`. -/
abbrev Procs := List NodeMap

/-- One iteration of the path loop in `SendMessages`: read the source node at
the path with its last id dropped (an `operator[]` read on the sender's own
map), then deliver `Node(GetValue(...), UNKNOWN)` at the full path to every
process `j ≠ mSource`, in ascending `j` order (`ReceiveMessage` stores the
node at the path). -/
def sendOne (tr : Traits) (pid : Nat) (procs : Procs) (p : Path) : Procs :=
  let read := NodeMap.getOrInsert (procs.getD pid emptyMap) p.dropLast
  let procs1 := procs.set pid read.2
  (List.range tr.mN).foldl
    (fun ps j =>
      if j = tr.mSource then ps
      else ps.set j
        (NodeMap.set (ps.getD j emptyMap) p
          ⟨tr.getValue read.1.input_value pid j p, Value.unknown⟩))
    procs1

/-- `SendMessages(round, processes)` on process `pid`. -/
def sendMessages (tr : Traits) (topo : Topo) (round pid : Nat) (procs : Procs) : Procs :=
  (topo.pathsByRank round pid).foldl (sendOne tr pid) procs

/-- The per-round sender loop of `main`: `for j in [0, N): processes[j].SendMessages(r)`. -/
def runRound (tr : Traits) (topo : Topo) (r : Nat) (procs : Procs) : Procs :=
  (List.range tr.mN).foldl (fun ps j => sendMessages tr topo r j ps) procs

/-- The initial processes: every map empty except the source, which is seeded
with `mNodes[""] = mTraits.GetSourceValue()` at construction. -/
def initProcs (tr : Traits) : Procs :=
  (List.range tr.mN).map
    (fun i => if i = tr.mSource then NodeMap.set emptyMap [] tr.getSourceValue else emptyMap)

/-- The first `k` rounds of the message loop of `main`. -/
def runRounds (tr : Traits) (topo : Topo) (k : Nat) : Procs :=
  (List.range k).foldl (fun ps r => runRound tr topo r ps) (initProcs tr)

/-- The full message phase: rounds `0, 1, ..., M`. -/
def runAll (tr : Traits) (topo : Topo) : Procs :=
  runRounds tr topo (tr.mM + 1)

/-!
### Decision (`Process::Decide`, `Process::GetMajority`)
-/

/-- The pure counting logic of `GetMajority` over the children's output
values: strict majority of ONEs, else strict majority of ZEROs, else the
default on `ones == zeros == n / 2`, else UNKNOWN. -/
def getMajorityVotes (dflt : Value) (votes : List Value) : Value :=
  let n := votes.length
  let ones := votes.count Value.one
  let zeros := votes.count Value.zero
  if n / 2 < ones then Value.one
  else if n / 2 < zeros then Value.zero
  else if ones = zeros ∧ ones = n / 2 then dflt
  else Value.unknown

/-- The counting loop of `GetMajority`: each child is read with
`mNodes[child]` (`operator[]`, possibly inserting), threading the map. -/
def collectVotes : List Path → NodeMap → List Value × NodeMap
  | [], nm => ([], nm)
  | c :: rest, nm =>
    let read := NodeMap.getOrInsert nm c
    let tail := collectVotes rest read.2
    (read.1.output_value :: tail.1, tail.2)

/-- `Process::GetMajority(path)`: tally the children's output values and
reduce.  A missing `mChildren` entry reads as the empty child list. -/
def getMajority (tr : Traits) (topo : Topo) (p : Path) (nm : NodeMap) : Value × NodeMap :=
  let votes := collectVotes ((topo.children p).getD []) nm
  (getMajorityVotes tr.getDefault votes.1, votes.2)

/-- Step 1 of `Decide`, one path: copy the input value to the output value
(`operator[]` read, then write through the reference). -/
def leafStep (nm : NodeMap) (p : Path) : NodeMap :=
  let read := NodeMap.getOrInsert nm p
  NodeMap.set read.2 p ⟨read.1.input_value, read.1.input_value⟩

def leafPass (tr : Traits) (topo : Topo) (nm : NodeMap) : NodeMap :=
  (List.range tr.mN).foldl
    (fun nm i => (topo.pathsByRank tr.mM i).foldl leafStep nm) nm

/-- One node of step 2 of `Decide`: take the node reference (an `operator[]`
read), compute `GetMajority(path)` (which may insert children entries), and
store the majority into the node's output value. -/
def majStep (tr : Traits) (topo : Topo) (nm : NodeMap) (p : Path) : NodeMap :=
  let read := NodeMap.getOrInsert nm p
  let maj := getMajority tr topo p read.2
  NodeMap.set maj.2 p ⟨read.1.input_value, maj.1⟩

def reductionPass (tr : Traits) (topo : Topo) (r : Nat) (nm : NodeMap) : NodeMap :=
  (List.range tr.mN).foldl
    (fun nm i => (topo.pathsByRank r i).foldl (majStep tr topo) nm) nm

/-- `Process::Decide` on process `pid` with node map `nm`, returning the
decision together with the mutated map.  The source returns
`mNodes[""].input_value`; everyone else runs the leaf pass, the reduction
passes for ranks `M-1, ..., 0`, and reads the output value at the root path
`mPathsByRank[0][mSource].front()`. -/
def decideProc (tr : Traits) (topo : Topo) (pid : Nat) (nm : NodeMap) : Value × NodeMap :=
  if pid = tr.mSource then
    let read := NodeMap.getOrInsert nm []
    (read.1.input_value, read.2)
  else
    let nm1 := leafPass tr topo nm
    let nm2 := (List.range tr.mM).reverse.foldl
      (fun nm r => reductionPass tr topo r nm) nm1
    let top := (topo.pathsByRank 0 tr.mSource).headD []
    let read := NodeMap.getOrInsert nm2 top
    (read.1.output_value, read.2)

/-!
### The checked decision

The specification declares a missing node lookup during the decision phase a
fatal invariant violation.  `decideChecked` is the same computation as
`decideProc`, but every `mNodes` lookup must find an existing entry; a miss
aborts with `none`.
-/

def collectVotesChecked : List Path → NodeMap → Option (List Value)
  | [], _ => some []
  | c :: rest, nm =>
    match NodeMap.find nm c with
    | none => none
    | some nd => (collectVotesChecked rest nm).map (fun vs => nd.output_value :: vs)

def leafStepChecked (nm : NodeMap) (p : Path) : Option NodeMap :=
  match NodeMap.find nm p with
  | none => none
  | some nd => some (NodeMap.set nm p ⟨nd.input_value, nd.input_value⟩)

def majStepChecked (tr : Traits) (topo : Topo) (nm : NodeMap) (p : Path) : Option NodeMap :=
  match NodeMap.find nm p with
  | none => none
  | some nd =>
    match collectVotesChecked ((topo.children p).getD []) nm with
    | none => none
    | some votes => some (NodeMap.set nm p ⟨nd.input_value, getMajorityVotes tr.getDefault votes⟩)

def optFold (f : NodeMap → Path → Option NodeMap) : NodeMap → List Path → Option NodeMap
  | nm, [] => some nm
  | nm, p :: rest =>
    match f nm p with
    | none => none
    | some nm' => optFold f nm' rest

def optPass (f : NodeMap → Path → Option NodeMap) (paths : Nat → List Path) :
    NodeMap → List Nat → Option NodeMap
  | nm, [] => some nm
  | nm, i :: rest =>
    match optFold f nm (paths i) with
    | none => none
    | some nm' => optPass f paths nm' rest

def optRounds (tr : Traits) (topo : Topo) : NodeMap → List Nat → Option NodeMap
  | nm, [] => some nm
  | nm, r :: rest =>
    match optPass (majStepChecked tr topo) (topo.pathsByRank r) nm (List.range tr.mN) with
    | none => none
    | some nm' => optRounds tr topo nm' rest

def decideChecked (tr : Traits) (topo : Topo) (pid : Nat) (nm : NodeMap) : Option Value :=
  if pid = tr.mSource then
    (NodeMap.find nm []).map (fun nd => nd.input_value)
  else
    match optPass leafStepChecked (topo.pathsByRank tr.mM) nm (List.range tr.mN) with
    | none => none
    | some nm1 =>
      match optRounds tr topo nm1 (List.range tr.mM).reverse with
      | none => none
      | some nm2 =>
        match NodeMap.find nm2 ((topo.pathsByRank 0 tr.mSource).headD []) with
        | none => none
        | some nd => some nd.output_value

/-- The topology of the hard-coded run. -/
def refTopo : Topo := genTopo 7 2 3

/-- The processes after the three messaging rounds of the hard-coded run. -/
def refFinal : Procs := runAll refTraits refTopo

/-- The decision of process `pid` in the hard-coded run. -/
def refDecision (pid : Nat) : Value :=
  (decideProc refTraits refTopo pid (refFinal.getD pid emptyMap)).1

end Byz

namespace Byz

/-!
### Concrete artifacts used by witnesses and counterexamples
-/

/-- The reference configuration with the tie-break default flipped to ZERO
(the policy interface allows either fixed default). -/
def refTraitsZeroDflt : Traits := { refTraits with getDefault := Value.zero }

/-- A participant state over the `(n = 4, m = 1, source = 0)` topology whose
three root children voted ONE, ZERO and UNKNOWN. -/
def oddSplitMap : NodeMap :=
  [([0, 1], ⟨Value.one, Value.one⟩),
   ([0, 2], ⟨Value.zero, Value.zero⟩),
   ([0, 3], ⟨Value.unknown, Value.unknown⟩)]

/-- A participant state over the `(n = 2, m = 1, source = 0)` topology whose
single root child voted UNKNOWN. -/
def oneUnknownMap : NodeMap :=
  [([0, 1], ⟨Value.unknown, Value.unknown⟩)]

/-- A participant state over the `(n = 3, m = 1, source = 0)` topology whose
two root children voted ONE and ZERO. -/
def tieMap : NodeMap :=
  [([0, 1], ⟨Value.one, Value.one⟩), ([0, 2], ⟨Value.zero, Value.zero⟩)]

/-- The processes of the hard-coded run after round 0 only. -/
def refAfterRound0 : Procs := runRounds refTraits refTopo 1

set_option maxRecDepth 1000000 in
/-- Claim C1: in the hard-coded reference run (`N = 7`, `M = 2`, `SOURCE = 3`,
faulty source sending ZERO to odd ids and ONE to even ids, participant 2
always sending ONE, default ONE), after rounds 0, 1, 2 the five non-faulty
participants 0, 1, 4, 5 and 6 all return the same value from `Decide()`
(the common value is ONE). -/
theorem refRun_nonfaulty_agree :
    refDecision 0 = refDecision 1 ∧ refDecision 1 = refDecision 4 ∧
    refDecision 4 = refDecision 5 ∧ refDecision 5 = refDecision 6 := by
  decide

/-!
### The majority reduction (`Process::GetMajority`)
-/

theorem collectVotes_of_found (cs : List Path) (nm : NodeMap)
    (h : ∀ c ∈ cs, (NodeMap.find nm c).isSome) :
    collectVotes cs nm =
      (cs.map (fun c => ((NodeMap.find nm c).getD faultyNode).output_value), nm) := by
  induction cs with
  | nil => rfl
  | cons c rest ih =>
    obtain ⟨nd, hnd⟩ := Option.isSome_iff_exists.mp (h c (List.mem_cons_self c rest))
    have hrest : ∀ c' ∈ rest, (NodeMap.find nm c').isSome :=
      fun c' hc' => h c' (List.mem_cons_of_mem c hc')
    simp [collectVotes, NodeMap.getOrInsert, hnd, ih hrest]

/-- Claim C2: for every internal path `P`, the majority reduction over the
children's output values returns ONE when the ONE tally strictly exceeds
`n / 2` (`n` the number of children), else ZERO when the ZERO tally strictly
exceeds `n / 2`, else the policy default when the ONE and ZERO tallies are
equal and both equal `n / 2`, and UNKNOWN otherwise. -/
theorem getMajority_tally_cases (tr : Traits) (topo : Topo) (p : Path) (nm : NodeMap)
    (h : ∀ c ∈ (topo.children p).getD [], (NodeMap.find nm c).isSome) :
    (getMajority tr topo p nm).1 =
      (let votes := ((topo.children p).getD []).map
        (fun c => ((NodeMap.find nm c).getD faultyNode).output_value)
       let n := votes.length
       let ones := votes.count Value.one
       let zeros := votes.count Value.zero
       if n / 2 < ones then Value.one
       else if n / 2 < zeros then Value.zero
       else if ones = zeros ∧ ones = n / 2 then tr.getDefault
       else Value.unknown) := by
  unfold getMajority
  rw [collectVotes_of_found _ _ h]
  rfl

/-- Witness for C2: over the `(n = 3, m = 1)` topology with root children
voting ONE and ZERO, the hypotheses hold and the reduction follows the stated
case split (here the exact-tie case, yielding the default ONE). -/
theorem getMajority_tally_cases_witness :
    (∀ c ∈ ((genTopo 3 1 0).children [0]).getD [], (NodeMap.find tieMap c).isSome) ∧
    (getMajority refTraits (genTopo 3 1 0) [0] tieMap).1 = Value.one :=
  ⟨by decide,
   (getMajority_tally_cases refTraits (genTopo 3 1 0) [0] tieMap (by decide)).trans (by decide)⟩

/-- Counterexample to claim C3: the internal node `[0]` of the
`(n = 4, m = 1, source = 0)` topology has three children — an odd number —
yet when they vote ONE, ZERO, UNKNOWN the reduction returns the policy
default (it tracks the default: flipping the default flips the result), and
the ONE tally 1 is not half of 3. -/
theorem getMajority_default_at_odd_node :
    (((genTopo 4 1 0).children [0]).getD []).length = 3 ∧
    (getMajority refTraits (genTopo 4 1 0) [0] oddSplitMap).1 = refTraits.getDefault ∧
    (getMajority refTraitsZeroDflt (genTopo 4 1 0) [0] oddSplitMap).1
      = refTraitsZeroDflt.getDefault ∧
    refTraits.getDefault ≠ refTraitsZeroDflt.getDefault ∧
    2 * 1 ≠ 3 := by
  decide

theorem count_one_add_count_zero (votes : List Value)
    (h : ∀ v ∈ votes, v = Value.one ∨ v = Value.zero) :
    votes.count Value.one + votes.count Value.zero = votes.length := by
  induction votes with
  | nil => rfl
  | cons v rest ih =>
    have hrest := ih (fun v' hv' => h v' (List.mem_cons_of_mem v hv'))
    rcases h v (List.mem_cons_self v rest) with hv | hv <;>
      subst hv <;>
      simp [List.count_cons, hrest] <;>
      omega

/-- Claim C3 (amended): the tie-break default is consulted exactly when the
ONE and ZERO tallies are equal and both equal `n / 2` (integer floor).  With
UNKNOWN or FAULTY votes present this can happen at a node with an odd number
of children, which then returns the default; only when every child votes ONE
or ZERO does an odd child count guarantee that the result is independent of
the default. -/
theorem getMajorityVotes_default_iff (d1 d2 : Value) (votes : List Value) :
    (votes.count Value.one = votes.count Value.zero ∧
        votes.count Value.one = votes.length / 2 →
      getMajorityVotes d1 votes = d1) ∧
    (¬(votes.count Value.one = votes.count Value.zero ∧
        votes.count Value.one = votes.length / 2) →
      getMajorityVotes d1 votes = getMajorityVotes d2 votes) ∧
    ((∀ v ∈ votes, v = Value.one ∨ v = Value.zero) → votes.length % 2 = 1 →
      getMajorityVotes d1 votes = getMajorityVotes d2 votes) := by
  refine ⟨fun h => ?_, fun h => ?_, fun hb hodd => ?_⟩
  · unfold getMajorityVotes
    rw [if_neg (by omega), if_neg (by omega), if_pos h]
  · unfold getMajorityVotes
    by_cases h1 : votes.length / 2 < votes.count Value.one
    · rw [if_pos h1, if_pos h1]
    · rw [if_neg h1, if_neg h1]
      by_cases h2 : votes.length / 2 < votes.count Value.zero
      · rw [if_pos h2, if_pos h2]
      · rw [if_neg h2, if_neg h2, if_neg h, if_neg h]
  · have hsum := count_one_add_count_zero votes hb
    unfold getMajorityVotes
    by_cases h1 : votes.length / 2 < votes.count Value.one
    · rw [if_pos h1, if_pos h1]
    · rw [if_neg h1, if_neg h1]
      by_cases h2 : votes.length / 2 < votes.count Value.zero
      · rw [if_pos h2, if_pos h2]
      · have : ¬(votes.count Value.one = votes.count Value.zero ∧
            votes.count Value.one = votes.length / 2) := by
          rintro ⟨he, _⟩
          omega
        rw [if_neg this, if_neg this]

/-- Witness for C3 (amended): at the odd vote list ONE, ZERO, UNKNOWN the
tallies are an exact floor-tie, so the reduction returns the default. -/
theorem getMajorityVotes_default_iff_witness :
    getMajorityVotes Value.one [Value.one, Value.zero, Value.unknown] = Value.one :=
  (getMajorityVotes_default_iff Value.one Value.zero
    [Value.one, Value.zero, Value.unknown]).1 (by decide)

/-- Counterexample to claim C4: the internal node `[0]` of the
`(n = 2, m = 1, source = 0)` topology has exactly one child; when that child's
output is UNKNOWN the reduction returns the default ONE, not UNKNOWN. -/
theorem getMajority_single_unknown_child :
    ((genTopo 2 1 0).children [0]).getD [] = [[0, 1]] ∧
    (getMajority refTraits (genTopo 2 1 0) [0] oneUnknownMap).1 = Value.one ∧
    Value.one ≠ Value.unknown := by
  decide

/-- Claim C4 (amended): when every child vote is UNKNOWN, a node with at
least two children reduces to UNKNOWN, but a node with exactly one child
reduces to the policy default. -/
theorem all_unknown_votes (dflt : Value) (votes : List Value)
    (hall : ∀ v ∈ votes, v = Value.unknown) :
    (2 ≤ votes.length → getMajorityVotes dflt votes = Value.unknown) ∧
    (votes.length = 1 → getMajorityVotes dflt votes = dflt) := by
  have hone : votes.count Value.one = 0 := by
    rw [List.count_eq_zero]
    intro hmem
    exact absurd (hall _ hmem) (by decide)
  have hzero : votes.count Value.zero = 0 := by
    rw [List.count_eq_zero]
    intro hmem
    exact absurd (hall _ hmem) (by decide)
  constructor
  · intro h2
    unfold getMajorityVotes
    rw [if_neg (by omega), if_neg (by omega), if_neg (by omega)]
  · intro h1
    unfold getMajorityVotes
    rw [if_neg (by omega), if_neg (by omega), if_pos (by omega)]

/-- Witness for C4 (amended): two UNKNOWN votes reduce to UNKNOWN and the
single UNKNOWN vote reduces to the default. -/
theorem all_unknown_votes_witness :
    getMajorityVotes Value.one [Value.unknown, Value.unknown] = Value.unknown ∧
    getMajorityVotes Value.one [Value.unknown] = Value.one :=
  ⟨(all_unknown_votes Value.one [Value.unknown, Value.unknown] (by decide)).1 (by decide),
   (all_unknown_votes Value.one [Value.unknown] (by decide)).2 (by decide)⟩

set_option maxRecDepth 1000000 in
/-- Counterexample to claim C5: in the hard-coded run, participant 0 owns the
round-1 path `[3, 0]`; before its round-1 `SendMessages` its map has no entry
there, and after its own `SendMessages` (the first send of round 1) its map
does — the sender delivered the path to itself.  After all rounds the entry
is still there, although the path ends in the participant's own id. -/
theorem sendMessages_delivers_to_self :
    [3, 0] ∈ refTopo.pathsByRank 1 0 ∧
    NodeMap.find (refAfterRound0.getD 0 emptyMap) [3, 0] = none ∧
    NodeMap.find ((sendMessages refTraits refTopo 1 0 refAfterRound0).getD 0 emptyMap) [3, 0]
      = some ⟨Value.one, Value.unknown⟩ ∧
    (NodeMap.find (refFinal.getD 0 emptyMap) [3, 0]).isSome := by
  decide

/-- Counterexample to claim C8: in the `(n = 1, m = 1, source = 0)`
configuration the topology path `[0]` has no children entry, yet its length
is 1, not `m + 1 = 2`. -/
theorem childless_path_short :
    [0] ∈ (genTopo 1 1 0).pathsByRank 0 0 ∧
    (genTopo 1 1 0).children [0] = none ∧
    [0].length ≠ 1 + 1 := by
  decide

end Byz

namespace Byz

/-!
### Characterizing the generated topology

`genFrom n m cp src P` describes the paths generated by the recursive call
`GenerateChildren(m, n, ids, src, cp, |cp|)` (with `ids` holding exactly the
ids absent from `cp`): the extensions of `cp` by `src` followed by distinct
fresh ids below `n`, of length at most `m + 1`.
-/

def genFrom (n m : Nat) (cp : Path) (src : Nat) (P : Path) : Prop :=
  ∃ ext, P = cp ++ src :: ext ∧ (src :: ext).Nodup ∧
    (∀ x ∈ src :: ext, x < n ∧ x ∉ cp) ∧ P.length ≤ m + 1

/-- The paths of the full topology: sequences of distinct ids below `n`
starting with the source, of length at most `m + 1`. -/
def generated (n m source : Nat) (P : Path) : Prop :=
  genFrom n m [] source P

/-- The children a path `P` owns in the topology: `P ++ [j]` for every id
`j < n` not occurring in `P`, in ascending order of `j`. -/
def childList (n : Nat) (P : Path) : List Path :=
  ((List.range n).filter (fun j => decide (j ∉ P))).map (fun j => P ++ [j])

theorem pushPath_children (st : Topo) (r i : Nat) (p : Path) :
    (st.pushPath r i p).children = st.children := rfl

theorem pushPath_mem (st : Topo) (r i : Nat) (p : Path) (r' i' : Nat) (q : Path) :
    q ∈ (st.pushPath r i p).pathsByRank r' i' ↔
      q ∈ st.pathsByRank r' i' ∨ (q = p ∧ r' = r ∧ i' = i) := by
  unfold Topo.pushPath
  dsimp only
  by_cases h : r' = r ∧ i' = i
  · obtain ⟨rfl, rfl⟩ := h
    rw [if_pos ⟨rfl, rfl⟩, List.mem_append, List.mem_singleton]
    tauto
  · rw [if_neg h]
    constructor
    · exact fun hq => Or.inl hq
    · rintro (hq | ⟨rfl, rfl, rfl⟩)
      · exact hq
      · exact absurd ⟨rfl, rfl⟩ h

theorem pushChild_pbr (st : Topo) (key c : Path) :
    (st.pushChild key c).pathsByRank = st.pathsByRank := rfl

theorem pushChild_self (st : Topo) (key c : Path) :
    (st.pushChild key c).children key = some ((st.children key).getD [] ++ [c]) := by
  unfold Topo.pushChild
  dsimp only
  rw [if_pos rfl]

theorem pushChild_other (st : Topo) (key c q : Path) (h : q ≠ key) :
    (st.pushChild key c).children q = st.children q := by
  unfold Topo.pushChild
  dsimp only
  rw [if_neg h]

theorem genFrom_length {n m : Nat} {cp : Path} {src : Nat} {P : Path}
    (h : genFrom n m cp src P) :
    cp.length + 1 ≤ P.length ∧ P.length ≤ m + 1 := by
  obtain ⟨ext, hP, -, -, hlen⟩ := h
  subst hP
  refine ⟨?_, hlen⟩
  simp only [List.length_append, List.length_cons]
  omega

theorem genFrom_ne_base {n m : Nat} {cp' : Path} {j : Nat} {P : Path}
    (h : genFrom n m cp' j P) : P ≠ cp' := by
  intro hP
  have hl := (genFrom_length h).1
  rw [hP] at hl
  omega

theorem genFrom_head_eq {n m : Nat} {cp' : Path} {j j' : Nat} {P : Path}
    (h : genFrom n m cp' j P) (h' : genFrom n m cp' j' P) : j = j' := by
  obtain ⟨ext, hP, -, -, -⟩ := h
  obtain ⟨ext', hP', -, -, -⟩ := h'
  rw [hP] at hP'
  have hc := List.append_cancel_left hP'
  exact List.head_eq_of_cons_eq hc

theorem genFrom_base {n m : Nat} {cp : Path} {src : Nat}
    (hs : src < n) (hcp : src ∉ cp) (hlen : cp.length ≤ m) :
    genFrom n m cp src (cp ++ [src]) := by
  refine ⟨[], rfl, by simp, ?_, ?_⟩
  · intro x hx
    have : x = src := by simpa using hx
    subst this
    exact ⟨hs, hcp⟩
  · simp only [List.length_append, List.length_cons, List.length_nil]
    omega

theorem genFrom_eq_base {n m : Nat} {cp : Path} {src : Nat} {P : Path}
    (h : genFrom n m cp src P) (hl : P.length = cp.length + 1) : P = cp ++ [src] := by
  obtain ⟨ext, hP, -, -, -⟩ := h
  subst hP
  simp only [List.length_append, List.length_cons] at hl
  have : ext = [] := List.eq_nil_of_length_eq_zero (by omega)
  subst this
  rfl

theorem genFrom_decomp {n m : Nat} {cp : Path} {src : Nat} {P : Path}
    (hs : src < n) (hcp : src ∉ cp) (hlen : cp.length ≤ m) :
    genFrom n m cp src P ↔
      P = cp ++ [src] ∨
      ∃ j, j < n ∧ j ∉ cp ∧ j ≠ src ∧ genFrom n m (cp ++ [src]) j P := by
  constructor
  · rintro ⟨ext, rfl, hnd, hmem, hl⟩
    cases ext with
    | nil => exact Or.inl rfl
    | cons j ext' =>
      have hsrc_not : src ∉ j :: ext' := (List.nodup_cons.mp hnd).1
      refine Or.inr ⟨j, (hmem j (by simp)).1, (hmem j (by simp)).2, ?_, ?_⟩
      · intro hj
        exact hsrc_not (hj ▸ List.mem_cons_self j ext')
      · refine ⟨ext', by simp, (List.nodup_cons.mp hnd).2, ?_, ?_⟩
        · intro x hx
          refine ⟨(hmem x (List.mem_cons_of_mem src hx)).1, ?_⟩
          simp only [List.mem_append, List.mem_singleton]
          rintro (hx' | rfl)
          · exact (hmem x (List.mem_cons_of_mem src hx)).2 hx'
          · exact hsrc_not hx
        · simpa using hl
  · rintro (rfl | ⟨j, hjn, hjcp, hjs, ext', rfl, hnd', hmem', hl'⟩)
    · exact genFrom_base hs hcp hlen
    · refine ⟨j :: ext', by simp, ?_, ?_, ?_⟩
      · rw [List.nodup_cons]
        refine ⟨?_, hnd'⟩
        intro hsrc_mem
        have := (hmem' src hsrc_mem).2
        simp at this
      · intro x hx
        rcases List.mem_cons.mp hx with rfl | hx'
        · exact ⟨hs, hcp⟩
        · have := hmem' x hx'
          refine ⟨this.1, ?_⟩
          intro hxcp
          exact this.2 (by simp [hxcp])
      · simpa using hl'

/-- Precondition of a `GenerateChildren` call: `ids` holds exactly the ids
below `n` absent from `cp`, the originator is fresh, `rank` is the path
length, `d = m - rank`, and no path the call will generate has a children
entry yet. -/
structure GenPre (n m : Nat) (ids : Nat → Bool) (src : Nat) (cp : Path) (rank d : Nat)
    (st : Topo) : Prop where
  ids_spec : ∀ i, ids i = true ↔ (i < n ∧ i ∉ cp)
  src_lt : src < n
  src_notin : src ∉ cp
  cp_nodup : cp.Nodup
  cp_lt : ∀ x ∈ cp, x < n
  rank_eq : rank = cp.length
  rank_d : rank + d = m
  fresh : ∀ P, genFrom n m cp src P → st.children P = none

/-- Effect of a `GenerateChildren` call on the topology state: the generated
paths are appended to `pathsByRank` at their rank and originator, and exactly
the internal generated paths with at least one free id receive their full,
ascending children entry. -/
structure GenPost (n m : Nat) (cp : Path) (src : Nat) (st st' : Topo) : Prop where
  pbr : ∀ r i P, P ∈ st'.pathsByRank r i ↔
    (P ∈ st.pathsByRank r i ∨
      (genFrom n m cp src P ∧ P.length = r + 1 ∧ P.getLast? = some i))
  child_new : ∀ P, genFrom n m cp src P → P.length ≤ m → childList n P ≠ [] →
    st'.children P = some (childList n P)
  child_old : ∀ P, ¬(genFrom n m cp src P ∧ P.length ≤ m ∧ childList n P ≠ []) →
    st'.children P = st.children P

/-- Effect of the recipient loop of `GenerateChildren` over the id list `is`:
subtrees are generated for every `i ∈ is` with `ids' i`, and the children
entry of the loop's own node `cp'` accumulates `cp' ++ [i]` in loop order. -/
structure LoopPost (n m : Nat) (ids' : Nat → Bool) (cp' : Path) (is : List Nat)
    (st st' : Topo) : Prop where
  pbr : ∀ r i P, P ∈ st'.pathsByRank r i ↔
    (P ∈ st.pathsByRank r i ∨
      ∃ j, j ∈ is ∧ ids' j = true ∧ genFrom n m cp' j P ∧ P.length = r + 1 ∧
        P.getLast? = some i)
  child_base : st'.children cp' =
    if is.filter ids' = [] then st.children cp'
    else some ((st.children cp').getD [] ++ (is.filter ids').map (fun i => cp' ++ [i]))
  child_new : ∀ P j, j ∈ is → ids' j = true → genFrom n m cp' j P → P.length ≤ m →
    childList n P ≠ [] → st'.children P = some (childList n P)
  child_old : ∀ P, P ≠ cp' →
    (∀ j ∈ is, ids' j = true → ¬(genFrom n m cp' j P ∧ P.length ≤ m ∧ childList n P ≠ [])) →
    st'.children P = st.children P

end Byz

namespace Byz

theorem genLoop_post (n m e rank' : Nat) (ids' : Nat → Bool) (cp' : Path)
    (hids : ∀ i, ids' i = true ↔ (i < n ∧ i ∉ cp'))
    (IH : ∀ (ids : Nat → Bool) (src : Nat) (cp : Path) (st : Topo),
        GenPre n m ids src cp rank' e st →
        GenPost n m cp src st (genChildren n e ids src cp rank' st))
    (hnd : cp'.Nodup) (hlt : ∀ x ∈ cp', x < n)
    (hrank : rank' = cp'.length) (hrd : rank' + e = m) :
    ∀ (is : List Nat) (st : Topo), is.Nodup →
      (∀ j ∈ is, ids' j = true → ∀ P, genFrom n m cp' j P → st.children P = none) →
      LoopPost n m ids' cp' is st
        (genLoop (fun ids'' src cp'' st' => genChildren n e ids'' src cp'' rank' st')
          ids' cp' is st) := by
  intro is
  induction is with
  | nil =>
    intro st _ _
    refine ⟨fun r i P => ?_, ?_, fun P j hj => absurd hj (List.not_mem_nil j),
      fun P _ _ => rfl⟩
    · simp [genLoop]
    · simp [genLoop]
  | cons i rest ihl =>
    intro st hnodup hfresh
    have hnotin : i ∉ rest := (List.nodup_cons.mp hnodup).1
    have hnodup' : rest.Nodup := (List.nodup_cons.mp hnodup).2
    by_cases hi : ids' i = true
    · -- the loop body runs the subtree at i, then pushes the child
      have hin : i < n := ((hids i).mp hi).1
      have hicp : i ∉ cp' := ((hids i).mp hi).2
      have pre1 : GenPre n m ids' i cp' rank' e st :=
        { ids_spec := hids
          src_lt := hin
          src_notin := hicp
          cp_nodup := hnd
          cp_lt := hlt
          rank_eq := hrank
          rank_d := hrd
          fresh := fun P hP => hfresh i (List.mem_cons_self i rest) hi P hP }
      have post1 := IH ids' i cp' st pre1
      set st1 := genChildren n e ids' i cp' rank' st with hst1
      set st2 := st1.pushChild cp' (cp' ++ [i]) with hst2
      have hch1 : st1.children cp' = st.children cp' :=
        post1.child_old cp' (fun h => genFrom_ne_base h.1 rfl)
      have hfresh2 : ∀ j ∈ rest, ids' j = true → ∀ P, genFrom n m cp' j P →
          st2.children P = none := by
        intro j hj hj' P hP
        have hji : j ≠ i := fun h => hnotin (h ▸ hj)
        rw [hst2, pushChild_other _ _ _ _ (genFrom_ne_base hP),
          post1.child_old P (fun h => hji (genFrom_head_eq hP h.1))]
        exact hfresh j (List.mem_cons_of_mem i hj) hj' P hP
      have post2 := ihl st2 hnodup' hfresh2
      have hunfold :
          genLoop (fun ids'' src cp'' st' => genChildren n e ids'' src cp'' rank' st')
            ids' cp' (i :: rest) st
          = genLoop (fun ids'' src cp'' st' => genChildren n e ids'' src cp'' rank' st')
            ids' cp' rest st2 := by
        rw [genLoop, if_pos hi]
      rw [hunfold]
      refine ⟨fun r i' P => ?_, ?_, fun P j hj hj' hP hPlen hcl => ?_,
        fun P hPne hnone => ?_⟩
      · rw [post2.pbr r i' P, hst2, pushChild_pbr, post1.pbr r i' P]
        constructor
        · rintro ((h | hA) | ⟨j, hj, hB⟩)
          · exact Or.inl h
          · exact Or.inr ⟨i, List.mem_cons_self i rest, hi, hA.1, hA.2.1, hA.2.2⟩
          · exact Or.inr ⟨j, List.mem_cons_of_mem i hj, hB⟩
        · rintro (h | ⟨j, hj, hj', hgen, hlen, hlast⟩)
          · exact Or.inl (Or.inl h)
          · rcases List.mem_cons.mp hj with rfl | hj2
            · exact Or.inl (Or.inr ⟨hgen, hlen, hlast⟩)
            · exact Or.inr ⟨j, hj2, hj', hgen, hlen, hlast⟩
      · have hfilter : (i :: rest).filter ids' = i :: rest.filter ids' :=
          List.filter_cons_of_pos hi
        have hself : st2.children cp' = some ((st.children cp').getD [] ++ [cp' ++ [i]]) := by
          rw [hst2, pushChild_self, hch1]
        rw [post2.child_base, hfilter]
        cases hrf : rest.filter ids' with
        | nil =>
          rw [if_pos rfl, hself, if_neg (by simp)]
          simp
        | cons a as =>
          rw [if_neg (by simp), hself, if_neg (by simp)]
          simp [List.append_assoc]
      · rcases List.mem_cons.mp hj with rfl | hj2
        · have h1 : st1.children P = some (childList n P) :=
            post1.child_new P hP hPlen hcl
          have h2 : st2.children P = some (childList n P) := by
            rw [hst2, pushChild_other _ _ _ _ (genFrom_ne_base hP)]
            exact h1
          rw [post2.child_old P (genFrom_ne_base hP) ?_]
          · exact h2
          · intro j' hj' hj'' h
            exact hnotin ((genFrom_head_eq h.1 hP) ▸ hj')
        · exact post2.child_new P j hj2 hj' hP hPlen hcl
      · rw [post2.child_old P hPne
            (fun j hj hj' => hnone j (List.mem_cons_of_mem i hj) hj'),
          hst2, pushChild_other _ _ _ _ hPne,
          post1.child_old P (fun h => hnone i (List.mem_cons_self i rest) hi
            ⟨h.1, h.2.1, h.2.2⟩)]
    · -- the loop body skips i
      have hif : ids' i = false := by
        revert hi
        cases ids' i <;> simp
      have post2 := ihl st hnodup'
        (fun j hj hj' P hP => hfresh j (List.mem_cons_of_mem i hj) hj' P hP)
      have hunfold :
          genLoop (fun ids'' src cp'' st' => genChildren n e ids'' src cp'' rank' st')
            ids' cp' (i :: rest) st
          = genLoop (fun ids'' src cp'' st' => genChildren n e ids'' src cp'' rank' st')
            ids' cp' rest st := by
        rw [genLoop, if_neg hi]
      rw [hunfold]
      refine ⟨fun r i' P => ?_, ?_, fun P j hj hj' hP hPlen hcl => ?_,
        fun P hPne hnone => ?_⟩
      · rw [post2.pbr r i' P]
        constructor
        · rintro (h | ⟨j, hj, hB⟩)
          · exact Or.inl h
          · exact Or.inr ⟨j, List.mem_cons_of_mem i hj, hB⟩
        · rintro (h | ⟨j, hj, hj', hgen, hlen, hlast⟩)
          · exact Or.inl h
          · rcases List.mem_cons.mp hj with rfl | hj2
            · rw [hif] at hj'
              exact absurd hj' (by simp)
            · exact Or.inr ⟨j, hj2, hj', hgen, hlen, hlast⟩
      · have hfilter : (i :: rest).filter ids' = rest.filter ids' :=
          List.filter_cons_of_neg (by simp [hif])
        rw [post2.child_base, hfilter]
      · rcases List.mem_cons.mp hj with rfl | hj2
        · rw [hif] at hj'
          exact absurd hj' (by simp)
        · exact post2.child_new P j hj2 hj' hP hPlen hcl
      · exact post2.child_old P hPne
          (fun j hj hj' => hnone j (List.mem_cons_of_mem i hj) hj')

end Byz

namespace Byz

theorem getLast?_append_singleton {α : Type} (l : List α) (a : α) :
    (l ++ [a]).getLast? = some a := by
  simp

theorem genChildren_post (n m : Nat) :
    ∀ (d : Nat) (ids : Nat → Bool) (src : Nat) (cp : Path) (rank : Nat) (st : Topo),
      GenPre n m ids src cp rank d st →
      GenPost n m cp src st (genChildren n d ids src cp rank st) := by
  intro d
  induction d with
  | zero =>
    intro ids src cp rank st pre
    have hcplen : cp.length = m := by
      have h1 := pre.rank_d
      have h2 := pre.rank_eq
      omega
    show GenPost n m cp src st (st.pushPath rank src (cp ++ [src]))
    refine ⟨fun r i P => ?_, fun P hP hPlen hcl => ?_, fun P _ => rfl⟩
    · rw [pushPath_mem]
      constructor
      · rintro (h | ⟨rfl, rfl, rfl⟩)
        · exact Or.inl h
        · refine Or.inr ⟨genFrom_base pre.src_lt pre.src_notin (by omega), ?_, ?_⟩
          · simp only [List.length_append, List.length_cons, List.length_nil]
            have := pre.rank_eq
            omega
          · apply getLast?_append_singleton
      · rintro (h | ⟨hgen, hlen, hlast⟩)
        · exact Or.inl h
        · have hlb := genFrom_length hgen
          have hPeq : P = cp ++ [src] := genFrom_eq_base hgen (by omega)
          refine Or.inr ⟨hPeq, ?_, ?_⟩
          · have : P.length = cp.length + 1 := by omega
            have h2 := pre.rank_eq
            omega
          · rw [hPeq, getLast?_append_singleton] at hlast
            exact (Option.some.inj hlast).symm
    · exfalso
      have := (genFrom_length hP).1
      omega
  | succ e IHe =>
    intro ids src cp rank st pre
    have hlcp : cp.length ≤ m := by
      have h1 := pre.rank_d
      have h2 := pre.rank_eq
      omega
    have hids' : ∀ i, (if i = src then false else ids i) = true ↔
        (i < n ∧ i ∉ cp ++ [src]) := by
      intro i
      by_cases h : i = src
      · subst h
        simp
      · rw [if_neg h, pre.ids_spec i]
        simp [h]
    have hnd' : (cp ++ [src]).Nodup := by
      rw [List.nodup_append]
      refine ⟨pre.cp_nodup, List.nodup_singleton src, ?_⟩
      intro x hx hx2
      have : x = src := by simpa using hx2
      subst this
      exact pre.src_notin hx
    have hlt' : ∀ x ∈ cp ++ [src], x < n := by
      intro x hx
      rcases List.mem_append.mp hx with h | h
      · exact pre.cp_lt x h
      · have : x = src := by simpa using h
        subst this
        exact pre.src_lt
    have hrank' : rank + 1 = (cp ++ [src]).length := by
      simp [pre.rank_eq]
    have hrd' : (rank + 1) + e = m := by
      have := pre.rank_d
      omega
    have hfresh1 : ∀ j ∈ List.range n, (if j = src then false else ids j) = true →
        ∀ P, genFrom n m (cp ++ [src]) j P →
        (st.pushPath rank src (cp ++ [src])).children P = none := by
      intro j _ hj' P hP
      rw [pushPath_children]
      have hj2 := (hids' j).mp hj'
      have hjcp : j ∉ cp := fun h => hj2.2 (List.mem_append.mpr (Or.inl h))
      have hjs : j ≠ src := fun h => hj2.2 (by simp [h])
      exact pre.fresh P ((genFrom_decomp pre.src_lt pre.src_notin hlcp).mpr
        (Or.inr ⟨j, hj2.1, hjcp, hjs, hP⟩))
    have lp := genLoop_post n m e (rank + 1) (fun i => if i = src then false else ids i)
      (cp ++ [src]) hids' (fun ids₂ src₂ cp₂ st₂ h => IHe ids₂ src₂ cp₂ (rank + 1) st₂ h)
      hnd' hlt' hrank' hrd' (List.range n) (st.pushPath rank src (cp ++ [src]))
      (List.nodup_range n) hfresh1
    have hfcongr : (List.range n).filter (fun i => if i = src then false else ids i)
        = (List.range n).filter (fun j => decide (j ∉ cp ++ [src])) := by
      apply List.filter_congr
      intro j hj
      have hjn : j < n := List.mem_range.mp hj
      by_cases hmem : j ∈ cp ++ [src]
      · have h1 : (if j = src then false else ids j) = false := by
          rcases (Bool.eq_false_or_eq_true (if j = src then false else ids j)) with h | h
          · exact absurd ((hids' j).mp h).2 (by simp [hmem])
          · exact h
        rw [h1]
        simp [hmem]
      · have h1 : (if j = src then false else ids j) = true := (hids' j).mpr ⟨hjn, hmem⟩
        rw [h1]
        simp [hmem]
    show GenPost n m cp src st
      (genLoop (fun ids'' src' cp'' st' => genChildren n e ids'' src' cp'' (rank + 1) st')
        (fun i => if i = src then false else ids i) (cp ++ [src]) (List.range n)
        (st.pushPath rank src (cp ++ [src])))
    refine ⟨fun r i P => ?_, fun P hP hPlen hcl => ?_, fun P hnP => ?_⟩
    · rw [lp.pbr r i P, pushPath_mem]
      constructor
      · rintro ((h | ⟨rfl, rfl, rfl⟩) | ⟨j, hj, hj', hgen, hlen, hlast⟩)
        · exact Or.inl h
        · refine Or.inr ⟨genFrom_base pre.src_lt pre.src_notin hlcp, ?_, ?_⟩
          · simp only [List.length_append, List.length_cons, List.length_nil]
            have := pre.rank_eq
            omega
          · apply getLast?_append_singleton
        · have hj2 := (hids' j).mp hj'
          have hjcp : j ∉ cp := fun h => hj2.2 (List.mem_append.mpr (Or.inl h))
          have hjs : j ≠ src := fun h => hj2.2 (by simp [h])
          exact Or.inr ⟨(genFrom_decomp pre.src_lt pre.src_notin hlcp).mpr
            (Or.inr ⟨j, hj2.1, hjcp, hjs, hgen⟩), hlen, hlast⟩
      · rintro (h | ⟨hgen, hlen, hlast⟩)
        · exact Or.inl (Or.inl h)
        · rcases (genFrom_decomp pre.src_lt pre.src_notin hlcp).mp hgen with
            rfl | ⟨j, hjn, hjcp, hjs, hgen'⟩
          · refine Or.inl (Or.inr ⟨rfl, ?_, ?_⟩)
            · simp only [List.length_append, List.length_cons, List.length_nil] at hlen
              have := pre.rank_eq
              omega
            · rw [getLast?_append_singleton] at hlast
              exact (Option.some.inj hlast).symm
          · refine Or.inr ⟨j, List.mem_range.mpr hjn, ?_, hgen', hlen, hlast⟩
            exact (hids' j).mpr ⟨hjn, by
              simp only [List.mem_append, List.mem_singleton]
              rintro (h | h)
              · exact hjcp h
              · exact hjs h⟩
    · rcases (genFrom_decomp pre.src_lt pre.src_notin hlcp).mp hP with
        rfl | ⟨j, hjn, hjcp, hjs, hgen'⟩
      · rw [lp.child_base, hfcongr]
        have hbase : (st.pushPath rank src (cp ++ [src])).children (cp ++ [src]) = none := by
          rw [pushPath_children]
          exact pre.fresh (cp ++ [src]) (genFrom_base pre.src_lt pre.src_notin hlcp)
        cases hf : (List.range n).filter (fun j => decide (j ∉ cp ++ [src])) with
        | nil =>
          exfalso
          apply hcl
          unfold childList
          rw [hf]
          rfl
        | cons a as =>
          rw [if_neg (by simp), hbase]
          unfold childList
          rw [hf]
          simp
      · exact lp.child_new P j (List.mem_range.mpr hjn)
          ((hids' j).mpr ⟨hjn, by
            simp only [List.mem_append, List.mem_singleton]
            rintro (h | h)
            · exact hjcp h
            · exact hjs h⟩) hgen' hPlen hcl
    · by_cases hPcp : P = cp ++ [src]
      · subst hPcp
        have hgen : genFrom n m cp src (cp ++ [src]) :=
          genFrom_base pre.src_lt pre.src_notin hlcp
        have hlen : (cp ++ [src]).length ≤ m := by
          simp only [List.length_append, List.length_cons, List.length_nil]
          have h1 := pre.rank_d
          have h2 := pre.rank_eq
          omega
        have hclnil : childList n (cp ++ [src]) = [] := by
          by_contra hne
          exact hnP ⟨hgen, hlen, hne⟩
        have hfnil : (List.range n).filter (fun j => decide (j ∉ cp ++ [src])) = [] := by
          unfold childList at hclnil
          exact List.map_eq_nil_iff.mp hclnil
        rw [lp.child_base, hfcongr, hfnil, if_pos rfl, pushPath_children]
      · rw [lp.child_old P hPcp ?_, pushPath_children]
        intro j hj hj' h
        have hj2 := (hids' j).mp hj'
        have hjcp : j ∉ cp := fun hc => hj2.2 (List.mem_append.mpr (Or.inl hc))
        have hjs : j ≠ src := fun hc => hj2.2 (by simp [hc])
        exact hnP ⟨(genFrom_decomp pre.src_lt pre.src_notin hlcp).mpr
          (Or.inr ⟨j, hj2.1, hjcp, hjs, h.1⟩), h.2.1, h.2.2⟩

/-- The topology invariant, instantiated at the real entry call
`GenerateChildren(M, N, vector<bool>(N, true), source, "", 0)`. -/
theorem genTopo_post (n m source : Nat) (hs : source < n) :
    GenPost n m [] source emptyTopo (genTopo n m source) := by
  apply genChildren_post
  exact
    { ids_spec := by intro i; simp
      src_lt := hs
      src_notin := by simp
      cp_nodup := List.nodup_nil
      cp_lt := by intro x hx; simp at hx
      rank_eq := rfl
      rank_d := by omega
      fresh := fun P _ => rfl }

/-- Membership in `mPathsByRank[r][i]`: exactly the generated paths of length
`r + 1` ending in `i`. -/
theorem genTopo_pbr (n m source : Nat) (hs : source < n) (r i : Nat) (P : Path) :
    P ∈ (genTopo n m source).pathsByRank r i ↔
      generated n m source P ∧ P.length = r + 1 ∧ P.getLast? = some i := by
  have h := (genTopo_post n m source hs).pbr r i P
  have hempty : P ∈ emptyTopo.pathsByRank r i ↔ False := by
    simp [emptyTopo]
  rw [h]
  unfold generated
  tauto

theorem genTopo_children_some (n m source : Nat) (hs : source < n) (P : Path)
    (hgen : generated n m source P) (hlen : P.length ≤ m) (hcl : childList n P ≠ []) :
    (genTopo n m source).children P = some (childList n P) :=
  (genTopo_post n m source hs).child_new P hgen hlen hcl

theorem genTopo_children_none (n m source : Nat) (hs : source < n) (P : Path)
    (h : ¬(generated n m source P ∧ P.length ≤ m ∧ childList n P ≠ [])) :
    (genTopo n m source).children P = none :=
  ((genTopo_post n m source hs).child_old P h).trans rfl

end Byz

namespace Byz

theorem length_filter_split {α : Type} (l : List α) (p : α → Bool) :
    (l.filter p).length + (l.filter (fun a => !p a)).length = l.length := by
  induction l with
  | nil => rfl
  | cons a rest ih =>
    cases h : p a <;>
      simp only [List.filter_cons, h, Bool.not_true, Bool.not_false, if_pos, if_neg,
        Bool.false_eq_true, Bool.true_eq_false, ite_true, ite_false, List.length_cons] <;>
      omega

theorem filter_mem_perm (n : Nat) (P : Path) (hnd : P.Nodup) (hlt : ∀ x ∈ P, x < n) :
    ((List.range n).filter (fun j => decide (j ∈ P))).Perm P := by
  apply (List.perm_ext_iff_of_nodup (List.Nodup.filter _ (List.nodup_range n)) hnd).mpr
  intro a
  simp only [List.mem_filter, List.mem_range, decide_eq_true_eq]
  constructor
  · rintro ⟨-, h⟩
    exact h
  · intro h
    exact ⟨hlt a h, h⟩

theorem childList_length (n : Nat) (P : Path) (hnd : P.Nodup) (hlt : ∀ x ∈ P, x < n) :
    (childList n P).length = n - P.length := by
  unfold childList
  rw [List.length_map]
  have hsplit := length_filter_split (List.range n) (fun j => decide (j ∈ P))
  have hperm := (filter_mem_perm n P hnd hlt).length_eq
  have hcongr : (List.range n).filter (fun j => decide (j ∉ P))
      = (List.range n).filter (fun j => !(decide (j ∈ P))) := by
    apply List.filter_congr
    intro j _
    simp [decide_not]
  rw [hcongr, List.length_range] at *
  omega

theorem childList_ne_nil (n : Nat) (P : Path) (hnd : P.Nodup) (hlt : ∀ x ∈ P, x < n)
    (hP : P.length < n) : childList n P ≠ [] := by
  intro h
  have hl := childList_length n P hnd hlt
  rw [h] at hl
  simp only [List.length_nil] at hl
  omega

theorem generated_nodup {n m source : Nat} {P : Path} (h : generated n m source P) :
    P.Nodup ∧ ∀ x ∈ P, x < n := by
  obtain ⟨ext, hP, hnd, hmem, -⟩ := h
  simp only [List.nil_append] at hP
  subst hP
  exact ⟨hnd, fun x hx => (hmem x hx).1⟩

theorem generated_child {n m source : Nat} {P : Path} (hgen : generated n m source P)
    (hlen : P.length ≤ m) {c : Path} (hc : c ∈ childList n P) :
    generated n m source c ∧ c.length = P.length + 1 := by
  unfold childList at hc
  obtain ⟨j, hjf, rfl⟩ := List.mem_map.mp hc
  have hjmem := List.mem_filter.mp hjf
  have hjn : j < n := List.mem_range.mp hjmem.1
  have hjP : j ∉ P := by simpa using hjmem.2
  obtain ⟨ext, hP, hnd, hmem, hl⟩ := hgen
  simp only [List.nil_append] at hP
  subst hP
  refine ⟨⟨ext ++ [j], by simp, ?_, ?_, ?_⟩, by simp⟩
  · have : source :: (ext ++ [j]) = (source :: ext) ++ [j] := by simp
    rw [this, List.nodup_append]
    refine ⟨hnd, List.nodup_singleton j, ?_⟩
    intro x hx hx2
    have : x = j := by simpa using hx2
    subst this
    exact hjP hx
  · intro x hx
    have : source :: (ext ++ [j]) = (source :: ext) ++ [j] := by simp
    rw [this] at hx
    rcases List.mem_append.mp hx with h | h
    · exact ⟨(hmem x h).1, by simp⟩
    · have : x = j := by simpa using h
      subst this
      exact ⟨hjn, by simp⟩
  · simp only [List.length_append, List.length_cons, List.length_nil] at *
    omega

set_option maxRecDepth 10000 in
/-- Claim C8 (amended): for every configuration with `source_id < n` and
`m < n`, after topology construction every topology path with no children
entry has length exactly `m + 1`, and every path of length at most `m` has
exactly the children `P ++ [j]` for each id `j ∈ [0, n)` not occurring in
`P`, in ascending id order — in particular `n - |P|` of them.  (The
hypothesis `m < n` is necessary: for `n ≤ m` a path can exhaust all `n` ids
before reaching length `m + 1`, leaving a childless path of length `n ≤ m`.) -/
theorem genTopo_tree_shape (n m source : Nat) (hs : source < n) (hm : m < n)
    (r i : Nat) (P : Path) (hP : P ∈ (genTopo n m source).pathsByRank r i) :
    ((genTopo n m source).children P = none ↔ P.length = m + 1) ∧
    (P.length ≤ m →
      (genTopo n m source).children P = some (childList n P) ∧
      (childList n P).length = n - P.length ∧
      List.Pairwise (· < ·) ((List.range n).filter (fun j => decide (j ∉ P)))) := by
  have hgen := ((genTopo_pbr n m source hs r i P).mp hP).1
  have hnd := (generated_nodup hgen).1
  have hlt := (generated_nodup hgen).2
  have hlb := genFrom_length hgen
  simp only [List.length_nil] at hlb
  have hcl : P.length ≤ m → childList n P ≠ [] := fun h =>
    childList_ne_nil n P hnd hlt (by omega)
  constructor
  · constructor
    · intro hnone
      by_contra hne
      have hlen : P.length ≤ m := by omega
      rw [genTopo_children_some n m source hs P hgen hlen (hcl hlen)] at hnone
      exact Option.noConfusion hnone
    · intro hlen
      apply genTopo_children_none n m source hs
      rintro ⟨-, hle, -⟩
      omega
  · intro hlen
    exact ⟨genTopo_children_some n m source hs P hgen hlen (hcl hlen),
      childList_length n P hnd hlt,
      List.Pairwise.filter _ (List.pairwise_lt_range n)⟩

/-- Witness for C8 (amended): the round-1 path `[3, 0]` of the hard-coded
topology receives exactly the five children `[3,0,1], [3,0,2], [3,0,4],
[3,0,5], [3,0,6]`. -/
theorem genTopo_tree_shape_witness :
    (genTopo 7 2 3).children [3, 0]
      = some [[3, 0, 1], [3, 0, 2], [3, 0, 4], [3, 0, 5], [3, 0, 6]] :=
  (((genTopo_tree_shape 7 2 3 (by decide) (by decide) 1 0 [3, 0] (by decide)).2
    (by decide)).1).trans (by decide)

end Byz

namespace Byz

/-!
### Basic facts about `NodeMap` and the process vector
-/

theorem find_set_self (nm : NodeMap) (p : Path) (nd : Node) :
    NodeMap.find (NodeMap.set nm p nd) p = some nd := by
  induction nm with
  | nil => simp [NodeMap.set, NodeMap.find]
  | cons e rest ih =>
    by_cases h : e.1 = p
    · simp [NodeMap.set, NodeMap.find, h]
    · simp [NodeMap.set, NodeMap.find, h, ih]

theorem find_set_ne (nm : NodeMap) (p : Path) (nd : Node) (q : Path) (h : q ≠ p) :
    NodeMap.find (NodeMap.set nm p nd) q = NodeMap.find nm q := by
  have hpq : p ≠ q := fun hh => h hh.symm
  induction nm with
  | nil =>
    simp only [NodeMap.set, NodeMap.find]
    rw [if_neg hpq]
  | cons e rest ih =>
    by_cases h1 : e.1 = p
    · simp only [NodeMap.set, if_pos h1, NodeMap.find]
      rw [if_neg hpq, if_neg (by rw [h1]; exact hpq)]
    · simp only [NodeMap.set, if_neg h1, NodeMap.find]
      by_cases h2 : e.1 = q
      · rw [if_pos h2, if_pos h2]
      · rw [if_neg h2, if_neg h2]
        exact ih

theorem find_isSome_set (nm : NodeMap) (p : Path) (nd : Node) (q : Path)
    (h : (NodeMap.find nm q).isSome) :
    (NodeMap.find (NodeMap.set nm p nd) q).isSome := by
  by_cases hq : q = p
  · subst hq
    rw [find_set_self]
    rfl
  · rw [find_set_ne nm p nd q hq]
    exact h

theorem find_isSome_getOrInsert (nm : NodeMap) (p : Path) (q : Path)
    (h : (NodeMap.find nm q).isSome) :
    (NodeMap.find (NodeMap.getOrInsert nm p).2 q).isSome := by
  unfold NodeMap.getOrInsert
  cases hf : NodeMap.find nm p with
  | some nd => exact h
  | none => exact find_isSome_set nm p faultyNode q h

theorem getOrInsert_of_found (nm : NodeMap) (p : Path) (nd : Node)
    (h : NodeMap.find nm p = some nd) :
    NodeMap.getOrInsert nm p = (nd, nm) := by
  unfold NodeMap.getOrInsert
  rw [h]

theorem list_getD_set_self {α : Type} :
    ∀ (l : List α) (i : Nat) (x d : α), i < l.length → (l.set i x).getD i d = x := by
  intro l
  induction l with
  | nil =>
    intro i x d h
    simp at h
  | cons a rest ih =>
    intro i x d h
    cases i with
    | zero => rfl
    | succ i' =>
      simp only [List.set, List.getD_cons_succ]
      exact ih i' x d (by simpa using h)

theorem list_getD_set_ne {α : Type} :
    ∀ (l : List α) (i j : Nat) (x d : α), j ≠ i → (l.set i x).getD j d = l.getD j d := by
  intro l
  induction l with
  | nil =>
    intro i j x d _
    simp [List.set]
  | cons a rest ih =>
    intro i j x d h
    cases i with
    | zero =>
      cases j with
      | zero => exact absurd rfl h
      | succ j' => rfl
    | succ i' =>
      cases j with
      | zero => rfl
      | succ j' =>
        simp only [List.set, List.getD_cons_succ]
        exact ih i' j' x d (fun hh => h (by omega))

/-!
### Generic fold invariants
-/

theorem foldl_preserve {α β : Type} (f : β → α → β) (Q : β → Prop) :
    ∀ (l : List α) (b : β), (∀ b' a, a ∈ l → Q b' → Q (f b' a)) → Q b → Q (l.foldl f b) := by
  intro l
  induction l with
  | nil => exact fun b _ h => h
  | cons a rest ih =>
    intro b hstep hQ
    exact ih (f b a) (fun b' a' ha' => hstep b' a' (List.mem_cons_of_mem a ha'))
      (hstep b a (List.mem_cons_self a rest) hQ)

theorem foldl_establish {α β : Type} (f : β → α → β) (Inv Q : β → Prop) (x : α) :
    ∀ (l : List α) (b : β), x ∈ l →
      (∀ b' a, a ∈ l → Inv b' → Inv (f b' a)) → Inv b →
      (∀ b', Inv b' → Q (f b' x)) →
      (∀ b' a, a ∈ l → Q b' → Q (f b' a)) →
      Q (l.foldl f b) := by
  intro l
  induction l with
  | nil =>
    intro b hx
    exact absurd hx (List.not_mem_nil x)
  | cons a rest ih =>
    intro b hx hInvStep hInv est pres
    rcases List.mem_cons.mp hx with rfl | hx'
    · exact foldl_preserve f Q rest (f b x)
        (fun b' a' ha' => pres b' a' (List.mem_cons_of_mem x ha')) (est b hInv)
    · exact ih (f b a) hx'
        (fun b' a' ha' => hInvStep b' a' (List.mem_cons_of_mem a ha'))
        (hInvStep b a (List.mem_cons_self a rest) hInv)
        est (fun b' a' ha' => pres b' a' (List.mem_cons_of_mem a ha'))

end Byz

namespace Byz

theorem mem_of_getLast? {α : Type} :
    ∀ {l : List α} {a : α}, l.getLast? = some a → a ∈ l := by
  intro l
  induction l with
  | nil =>
    intro a h
    simp [List.getLast?] at h
  | cons x xs ih =>
    intro a h
    cases xs with
    | nil =>
      have : x = a := by simpa using h
      subst this
      exact List.mem_cons_self x []
    | cons y ys =>
      rw [List.getLast?_cons_cons] at h
      exact List.mem_cons_of_mem x (ih h)

/-- The only generated path ending in the source id is `[source]` itself. -/
theorem generated_last_source {n m source : Nat} {P : Path}
    (h : generated n m source P) (hlast : P.getLast? = some source) : P = [source] := by
  obtain ⟨ext, hP, hnd, -, -⟩ := h
  simp only [List.nil_append] at hP
  subst hP
  cases ext with
  | nil => rfl
  | cons a ext' =>
    exfalso
    have hsrc_not : source ∉ a :: ext' := (List.nodup_cons.mp hnd).1
    rw [List.getLast?_cons_cons] at hlast
    exact hsrc_not (mem_of_getLast? hlast)

/-!
### The source's map is never touched (frame invariant)
-/

/-- The source's node map as seeded at construction:
`mNodes[""] = GetSourceValue()`. -/
def seedMap (tr : Traits) : NodeMap := NodeMap.set emptyMap [] tr.getSourceValue

theorem seedMap_find_nil (tr : Traits) :
    NodeMap.find (seedMap tr) [] = some tr.getSourceValue :=
  find_set_self emptyMap [] tr.getSourceValue

theorem sendOne_source (tr : Traits) (pid : Nat) (procs : Procs) (p : Path) :
    (sendOne tr pid procs p).getD tr.mSource emptyMap
      = (procs.set pid (NodeMap.getOrInsert (procs.getD pid emptyMap) p.dropLast).2).getD
          tr.mSource emptyMap ∧
    (sendOne tr pid procs p).length = procs.length := by
  simp only [sendOne]
  generalize NodeMap.getOrInsert (procs.getD pid emptyMap) p.dropLast = read
  have hlen1 : (procs.set pid read.2).length = procs.length := by simp
  refine foldl_preserve _
    (fun ps => ps.getD tr.mSource emptyMap
        = (procs.set pid read.2).getD tr.mSource emptyMap ∧
      ps.length = procs.length)
    (List.range tr.mN) (procs.set pid read.2) ?_ ⟨rfl, hlen1⟩
  intro ps j _ hQ
  dsimp only
  by_cases hjs : j = tr.mSource
  · rw [if_pos hjs]
    exact hQ
  · rw [if_neg hjs]
    refine ⟨?_, by simpa using hQ.2⟩
    rw [list_getD_set_ne _ _ _ _ _ (fun hh => hjs hh.symm)]
    exact hQ.1

theorem sendOne_frame (tr : Traits) (pid : Nat) (procs : Procs) (p : Path)
    (hs : tr.mSource < tr.mN) (hlen : procs.length = tr.mN)
    (hmap : procs.getD tr.mSource emptyMap = seedMap tr)
    (hpid : pid = tr.mSource → p.dropLast = []) :
    (sendOne tr pid procs p).getD tr.mSource emptyMap = seedMap tr ∧
    (sendOne tr pid procs p).length = tr.mN := by
  have h := sendOne_source tr pid procs p
  refine ⟨?_, by rw [h.2, hlen]⟩
  rw [h.1]
  by_cases hp : pid = tr.mSource
  · subst hp
    rw [hmap, hpid rfl, getOrInsert_of_found _ _ _ (seedMap_find_nil tr)]
    rw [list_getD_set_self _ _ _ _ (by rw [hlen]; exact hs)]
  · rw [list_getD_set_ne _ _ _ _ _ (fun hh => hp hh.symm)]
    exact hmap

theorem sendMessages_frame (tr : Traits) (r pid : Nat) (procs : Procs)
    (hs : tr.mSource < tr.mN) (hlen : procs.length = tr.mN)
    (hmap : procs.getD tr.mSource emptyMap = seedMap tr) :
    (sendMessages tr (genTopo tr.mN tr.mM tr.mSource) r pid procs).getD tr.mSource emptyMap
      = seedMap tr ∧
    (sendMessages tr (genTopo tr.mN tr.mM tr.mSource) r pid procs).length = tr.mN := by
  unfold sendMessages
  refine foldl_preserve _
    (fun ps => ps.getD tr.mSource emptyMap = seedMap tr ∧ ps.length = tr.mN)
    _ procs ?_ ⟨hmap, hlen⟩
  intro ps a ha hQ
  refine sendOne_frame tr pid ps a hs hQ.2 hQ.1 ?_
  intro hpid
  rw [hpid] at ha
  have hmem := (genTopo_pbr tr.mN tr.mM tr.mSource hs r tr.mSource a).mp ha
  have : a = [tr.mSource] := generated_last_source hmem.1 hmem.2.2
  rw [this]
  rfl

theorem runRound_frame (tr : Traits) (r : Nat) (procs : Procs)
    (hs : tr.mSource < tr.mN) (hlen : procs.length = tr.mN)
    (hmap : procs.getD tr.mSource emptyMap = seedMap tr) :
    (runRound tr (genTopo tr.mN tr.mM tr.mSource) r procs).getD tr.mSource emptyMap
      = seedMap tr ∧
    (runRound tr (genTopo tr.mN tr.mM tr.mSource) r procs).length = tr.mN := by
  unfold runRound
  refine foldl_preserve _
    (fun ps => ps.getD tr.mSource emptyMap = seedMap tr ∧ ps.length = tr.mN)
    _ procs ?_ ⟨hmap, hlen⟩
  intro ps j _ hQ
  exact sendMessages_frame tr r j ps hs hQ.2 hQ.1

theorem initProcs_getD (tr : Traits) (i : Nat) (hi : i < tr.mN) :
    (initProcs tr).getD i emptyMap
      = (if i = tr.mSource then NodeMap.set emptyMap [] tr.getSourceValue else emptyMap) := by
  unfold initProcs
  rw [List.getD_eq_getElem?_getD, List.getElem?_map, List.getElem?_range hi]
  rfl

theorem initProcs_length (tr : Traits) : (initProcs tr).length = tr.mN := by
  unfold initProcs
  simp

theorem runRounds_frame (tr : Traits) (hs : tr.mSource < tr.mN) (k : Nat) :
    (runRounds tr (genTopo tr.mN tr.mM tr.mSource) k).getD tr.mSource emptyMap = seedMap tr ∧
    (runRounds tr (genTopo tr.mN tr.mM tr.mSource) k).length = tr.mN := by
  unfold runRounds
  refine foldl_preserve _
    (fun ps => ps.getD tr.mSource emptyMap = seedMap tr ∧ ps.length = tr.mN)
    _ (initProcs tr) ?_ ⟨?_, initProcs_length tr⟩
  · intro ps r _ hQ
    exact runRound_frame tr r ps hs hQ.2 hQ.1
  · rw [initProcs_getD tr tr.mSource hs, if_pos rfl]
    rfl

theorem decideProc_source (tr : Traits) (topo : Topo) :
    decideProc tr topo tr.mSource (seedMap tr)
      = (tr.getSourceValue.input_value, seedMap tr) := by
  unfold decideProc
  rw [if_pos rfl, getOrInsert_of_found _ _ _ (seedMap_find_nil tr)]

end Byz

namespace Byz

/-- Claim C10: throughout the run, the source participant's node map is
exactly the single seeded entry at the empty path.  After any number of
completed rounds the map is still `seedMap`; any single `SendMessages` call
(by any sender, in any round — in particular by the source itself) leaves it
unchanged; and the source's `Decide` only reads it. -/
theorem source_map_constant (tr : Traits) (hs : tr.mSource < tr.mN) (k : Nat) :
    (runRounds tr (genTopo tr.mN tr.mM tr.mSource) k).getD tr.mSource emptyMap = seedMap tr ∧
    (∀ (r pid : Nat) (procs : Procs), procs.length = tr.mN →
      procs.getD tr.mSource emptyMap = seedMap tr →
      (sendMessages tr (genTopo tr.mN tr.mM tr.mSource) r pid procs).getD tr.mSource emptyMap
        = seedMap tr) ∧
    (decideProc tr (genTopo tr.mN tr.mM tr.mSource) tr.mSource (seedMap tr)).2 = seedMap tr := by
  refine ⟨(runRounds_frame tr hs k).1, ?_, ?_⟩
  · intro r pid procs hlen hmap
    exact (sendMessages_frame tr r pid procs hs hlen hmap).1
  · rw [decideProc_source]

/-- Witness for C10: in the hard-coded run, after all three rounds the
source's map is still exactly the seeded singleton. -/
theorem source_map_constant_witness :
    (runRounds refTraits (genTopo 7 2 3) 3).getD 3 emptyMap = seedMap refTraits ∧
    (decideProc refTraits (genTopo 7 2 3) 3 (seedMap refTraits)).2 = seedMap refTraits :=
  ⟨(source_map_constant refTraits (by decide) 3).1,
   (source_map_constant refTraits (by decide) 3).2.2⟩

/-- Claim C6: for every configuration (any policy, any recursion depth), the
source participant's `Decide()` returns the input value of its seeded root
node, regardless of the values its `GetValue` actually sent in any round. -/
theorem source_decides_seed (tr : Traits) (hs : tr.mSource < tr.mN) :
    (decideProc tr (genTopo tr.mN tr.mM tr.mSource) tr.mSource
      ((runAll tr (genTopo tr.mN tr.mM tr.mSource)).getD tr.mSource emptyMap)).1
      = tr.getSourceValue.input_value := by
  have h := (runRounds_frame tr hs (tr.mM + 1)).1
  unfold runAll
  rw [h, decideProc_source]

/-- Witness for C6: in the reference scenario the source decides ZERO. -/
theorem source_decides_seed_witness :
    (decideProc refTraits (genTopo 7 2 3) 3
      ((runAll refTraits (genTopo 7 2 3)).getD 3 emptyMap)).1 = Value.zero :=
  (source_decides_seed refTraits (by decide)).trans (by decide)

end Byz

namespace Byz

/-!
### Every generated path is delivered to every non-source participant
-/

theorem list_getD_set {α : Type} :
    ∀ (l : List α) (i j : Nat) (x d : α),
      (l.set i x).getD j d = if j = i ∧ j < l.length then x else l.getD j d := by
  intro l
  induction l with
  | nil =>
    intro i j x d
    rw [if_neg (by simp)]
    simp [List.set]
  | cons a rest ih =>
    intro i j x d
    cases i with
    | zero =>
      cases j with
      | zero => simp
      | succ j' => simp
    | succ i' =>
      cases j with
      | zero => simp
      | succ j' =>
        simp only [List.set, List.getD_cons_succ, List.length_cons]
        rw [ih i' j' x d]
        by_cases h : j' = i' ∧ j' < rest.length
        · rw [if_pos h, if_pos ⟨by omega, by omega⟩]
        · rw [if_neg h, if_neg (by omega)]

theorem sendOne_mono (tr : Traits) (pid : Nat) (procs : Procs) (p : Path)
    (j : Nat) (P : Path)
    (h : (NodeMap.find (procs.getD j emptyMap) P).isSome) :
    (NodeMap.find ((sendOne tr pid procs p).getD j emptyMap) P).isSome := by
  simp only [sendOne]
  generalize hread : NodeMap.getOrInsert (procs.getD pid emptyMap) p.dropLast = read
  have h1 : (NodeMap.find ((procs.set pid read.2).getD j emptyMap) P).isSome := by
    rw [list_getD_set]
    by_cases hc : j = pid ∧ j < procs.length
    · rw [if_pos hc]
      rw [← hread]
      rw [hc.1] at h
      exact find_isSome_getOrInsert _ _ _ h
    · rw [if_neg hc]
      exact h
  refine foldl_preserve _
    (fun ps => (NodeMap.find (ps.getD j emptyMap) P).isSome)
    (List.range tr.mN) (procs.set pid read.2) ?_ h1
  intro ps a _ hQ
  dsimp only
  by_cases has : a = tr.mSource
  · rw [if_pos has]
    exact hQ
  · rw [if_neg has]
    rw [list_getD_set]
    by_cases hc : j = a ∧ j < ps.length
    · rw [if_pos hc]
      rw [hc.1] at hQ
      exact find_isSome_set _ _ _ _ hQ
    · rw [if_neg hc]
      exact hQ

theorem sendOne_delivers (tr : Traits) (pid : Nat) (procs : Procs) (p : Path)
    (j : Nat) (hj : j < tr.mN) (hjs : j ≠ tr.mSource) (hlen : procs.length = tr.mN) :
    (NodeMap.find ((sendOne tr pid procs p).getD j emptyMap) p).isSome := by
  simp only [sendOne]
  generalize hread : NodeMap.getOrInsert (procs.getD pid emptyMap) p.dropLast = read
  refine foldl_establish _
    (fun ps => ps.length = tr.mN)
    (fun ps => (NodeMap.find (ps.getD j emptyMap) p).isSome)
    j (List.range tr.mN) (procs.set pid read.2) (List.mem_range.mpr hj)
    ?_ (by simpa using hlen) ?_ ?_
  · intro ps a _ hInv
    dsimp only
    by_cases has : a = tr.mSource
    · rw [if_pos has]
      exact hInv
    · rw [if_neg has]
      simpa using hInv
  · intro ps hInv
    dsimp only
    rw [if_neg hjs, list_getD_set, if_pos ⟨rfl, by omega⟩, find_set_self]
    rfl
  · intro ps a _ hQ
    dsimp only
    by_cases has : a = tr.mSource
    · rw [if_pos has]
      exact hQ
    · rw [if_neg has]
      rw [list_getD_set]
      by_cases hc : j = a ∧ j < ps.length
      · rw [if_pos hc]
        rw [hc.1] at hQ
        exact find_isSome_set _ _ _ _ hQ
      · rw [if_neg hc]
        exact hQ

theorem sendOne_length (tr : Traits) (pid : Nat) (procs : Procs) (p : Path) :
    (sendOne tr pid procs p).length = procs.length :=
  (sendOne_source tr pid procs p).2

theorem sendMessages_mono (tr : Traits) (topo : Topo) (r pid : Nat) (procs : Procs)
    (j : Nat) (P : Path)
    (h : (NodeMap.find (procs.getD j emptyMap) P).isSome) :
    (NodeMap.find ((sendMessages tr topo r pid procs).getD j emptyMap) P).isSome := by
  unfold sendMessages
  refine foldl_preserve _
    (fun ps => (NodeMap.find (ps.getD j emptyMap) P).isSome) _ procs ?_ h
  intro ps a _ hQ
  exact sendOne_mono tr pid ps a j P hQ

theorem sendMessages_length (tr : Traits) (topo : Topo) (r pid : Nat) (procs : Procs) :
    (sendMessages tr topo r pid procs).length = procs.length := by
  unfold sendMessages
  refine foldl_preserve _ (fun ps => ps.length = procs.length) _ procs ?_ rfl
  intro ps a _ hQ
  rw [sendOne_length]
  exact hQ

theorem sendMessages_delivers (tr : Traits) (topo : Topo) (r pid : Nat) (procs : Procs)
    (P : Path) (hP : P ∈ topo.pathsByRank r pid)
    (j : Nat) (hj : j < tr.mN) (hjs : j ≠ tr.mSource) (hlen : procs.length = tr.mN) :
    (NodeMap.find ((sendMessages tr topo r pid procs).getD j emptyMap) P).isSome := by
  unfold sendMessages
  refine foldl_establish _
    (fun ps => ps.length = tr.mN)
    (fun ps => (NodeMap.find (ps.getD j emptyMap) P).isSome)
    P _ procs hP ?_ hlen ?_ ?_
  · intro ps a _ hInv
    rw [sendOne_length]
    exact hInv
  · intro ps hInv
    exact sendOne_delivers tr pid ps P j hj hjs hInv
  · intro ps a _ hQ
    exact sendOne_mono tr pid ps a j P hQ

theorem runRound_mono (tr : Traits) (topo : Topo) (r : Nat) (procs : Procs)
    (j : Nat) (P : Path)
    (h : (NodeMap.find (procs.getD j emptyMap) P).isSome) :
    (NodeMap.find ((runRound tr topo r procs).getD j emptyMap) P).isSome := by
  unfold runRound
  refine foldl_preserve _
    (fun ps => (NodeMap.find (ps.getD j emptyMap) P).isSome) _ procs ?_ h
  intro ps a _ hQ
  exact sendMessages_mono tr topo r a ps j P hQ

theorem runRound_length (tr : Traits) (topo : Topo) (r : Nat) (procs : Procs) :
    (runRound tr topo r procs).length = procs.length := by
  unfold runRound
  refine foldl_preserve _ (fun ps => ps.length = procs.length) _ procs ?_ rfl
  intro ps a _ hQ
  rw [sendMessages_length]
  exact hQ

theorem runRound_delivers (tr : Traits) (topo : Topo) (r : Nat) (procs : Procs)
    (i : Nat) (hi : i < tr.mN) (P : Path) (hP : P ∈ topo.pathsByRank r i)
    (j : Nat) (hj : j < tr.mN) (hjs : j ≠ tr.mSource) (hlen : procs.length = tr.mN) :
    (NodeMap.find ((runRound tr topo r procs).getD j emptyMap) P).isSome := by
  unfold runRound
  refine foldl_establish _
    (fun ps => ps.length = tr.mN)
    (fun ps => (NodeMap.find (ps.getD j emptyMap) P).isSome)
    i _ procs (List.mem_range.mpr hi) ?_ hlen ?_ ?_
  · intro ps a _ hInv
    rw [sendMessages_length]
    exact hInv
  · intro ps hInv
    exact sendMessages_delivers tr topo r i ps P hP j hj hjs hInv
  · intro ps a _ hQ
    exact sendMessages_mono tr topo r a ps j P hQ

theorem runRounds_length (tr : Traits) (topo : Topo) (k : Nat) :
    (runRounds tr topo k).length = tr.mN := by
  unfold runRounds
  refine foldl_preserve _ (fun ps => ps.length = tr.mN) _ (initProcs tr) ?_
    (initProcs_length tr)
  intro ps a _ hQ
  rw [runRound_length]
  exact hQ

theorem runRounds_delivers (tr : Traits) (topo : Topo) (k : Nat)
    (r : Nat) (hr : r < k) (i : Nat) (hi : i < tr.mN) (P : Path)
    (hP : P ∈ topo.pathsByRank r i)
    (j : Nat) (hj : j < tr.mN) (hjs : j ≠ tr.mSource) :
    (NodeMap.find ((runRounds tr topo k).getD j emptyMap) P).isSome := by
  unfold runRounds
  refine foldl_establish _
    (fun ps => ps.length = tr.mN)
    (fun ps => (NodeMap.find (ps.getD j emptyMap) P).isSome)
    r _ (initProcs tr) (List.mem_range.mpr hr) ?_ (initProcs_length tr) ?_ ?_
  · intro ps a _ hInv
    rw [runRound_length]
    exact hInv
  · intro ps hInv
    exact runRound_delivers tr topo r ps i hi P hP j hj hjs hInv
  · intro ps a _ hQ
    exact runRound_mono tr topo a ps j P hQ

/-- Every generated path of the topology ends up in the node map of every
non-source participant after the full message phase. -/
theorem runAll_complete (tr : Traits) (hs : tr.mSource < tr.mN)
    (j : Nat) (hj : j < tr.mN) (hjs : j ≠ tr.mSource)
    (P : Path) (hgen : generated tr.mN tr.mM tr.mSource P) :
    (NodeMap.find
      ((runAll tr (genTopo tr.mN tr.mM tr.mSource)).getD j emptyMap) P).isSome := by
  have hlb := genFrom_length hgen
  simp only [List.length_nil] at hlb
  have hne : P ≠ [] := by
    intro h
    rw [h] at hlb
    simp at hlb
  obtain ⟨i, hi⟩ := Option.isSome_iff_exists.mp (List.getLast?_isSome.mpr hne)
  have hin : i < tr.mN := (generated_nodup hgen).2 i (mem_of_getLast? hi)
  have hP : P ∈ (genTopo tr.mN tr.mM tr.mSource).pathsByRank (P.length - 1) i := by
    rw [genTopo_pbr tr.mN tr.mM tr.mSource hs]
    exact ⟨hgen, by omega, hi⟩
  exact runRounds_delivers tr (genTopo tr.mN tr.mM tr.mSource) (tr.mM + 1)
    (P.length - 1) (by omega) i hin P hP j hj hjs

end Byz

namespace Byz

/-- Claim C5 (amended): the recipient loop excludes only the source, so a
sender delivers each of its paths to every participant other than the source
— including itself.  Consequently, after the message phase every non-source
participant's node map has an entry for every topology path, in particular
paths whose last element is its own id. -/
theorem runAll_has_every_path (tr : Traits) (hs : tr.mSource < tr.mN)
    (pid : Nat) (hpid : pid < tr.mN) (hpids : pid ≠ tr.mSource)
    (r i : Nat) (P : Path)
    (hP : P ∈ (genTopo tr.mN tr.mM tr.mSource).pathsByRank r i) :
    (NodeMap.find
      ((runAll tr (genTopo tr.mN tr.mM tr.mSource)).getD pid emptyMap) P).isSome := by
  have hgen := ((genTopo_pbr tr.mN tr.mM tr.mSource hs r i P).mp hP).1
  exact runAll_complete tr hs pid hpid hpids P hgen

/-- Witness for C5 (amended): participant 0 of the hard-coded run ends up
with an entry at `[3, 0]`, a path ending in its own id. -/
theorem runAll_has_every_path_witness :
    (NodeMap.find ((runAll refTraits (genTopo 7 2 3)).getD 0 emptyMap) [3, 0]).isSome :=
  runAll_has_every_path refTraits (by decide) 0 (by decide) (by decide) 1 0 [3, 0]
    (by decide)

end Byz

namespace Byz

/-!
### Semantics of the decision pass

`outVal` is the value the bottom-up reduction of `Decide` computes at a path,
as a pure function of the stored input values: a path of length `M + 1`
copies its input, an internal path takes `GetMajority` over its children's
values.  The fuel argument of `outSpec` is `M + 1` minus the path length.
-/

/-- The input value stored at `P` (FAULTY when the entry is absent). -/
def inpOf (nm : NodeMap) (P : Path) : Value :=
  ((NodeMap.find nm P).getD faultyNode).input_value

def outSpec (tr : Traits) (topo : Topo) (inp : Path → Value) : Nat → Path → Value
  | 0, p => inp p
  | fuel + 1, p =>
    if p.length = tr.mM + 1 then inp p
    else getMajorityVotes tr.getDefault
      (((topo.children p).getD []).map (outSpec tr topo inp fuel))

def outVal (tr : Traits) (topo : Topo) (inp : Path → Value) (P : Path) : Value :=
  outSpec tr topo inp ((tr.mM + 1) - P.length) P

theorem outVal_leaf (tr : Traits) (topo : Topo) (inp : Path → Value) (P : Path)
    (hlen : P.length = tr.mM + 1) : outVal tr topo inp P = inp P := by
  unfold outVal
  rw [hlen, Nat.sub_self]
  rfl

/-- The children of a generated internal path, as read through
`(children p).getD []`: the full `childList`, every member generated and one
longer. -/
theorem genTopo_childrenD_mem {n m source : Nat} (hs : source < n) {P : Path}
    (hgen : generated n m source P) (hlen : P.length ≤ m) {c : Path}
    (hc : c ∈ ((genTopo n m source).children P).getD []) :
    generated n m source c ∧ c.length = P.length + 1 := by
  by_cases hcl : childList n P = []
  · rw [genTopo_children_none n m source hs P (fun h => h.2.2 hcl)] at hc
    simp at hc
  · rw [genTopo_children_some n m source hs P hgen hlen hcl] at hc
    simp only [Option.getD_some] at hc
    exact generated_child hgen hlen hc

theorem outSpec_congr (tr : Traits) (hs : tr.mSource < tr.mN)
    (inp1 inp2 : Path → Value)
    (h : ∀ Q, generated tr.mN tr.mM tr.mSource Q → inp1 Q = inp2 Q) :
    ∀ (fuel : Nat) (P : Path), generated tr.mN tr.mM tr.mSource P →
      outSpec tr (genTopo tr.mN tr.mM tr.mSource) inp1 fuel P
        = outSpec tr (genTopo tr.mN tr.mM tr.mSource) inp2 fuel P := by
  intro fuel
  induction fuel with
  | zero => exact fun P hP => h P hP
  | succ f ih =>
    intro P hP
    simp only [outSpec]
    by_cases hlen : P.length = tr.mM + 1
    · rw [if_pos hlen, if_pos hlen]
      exact h P hP
    · rw [if_neg hlen, if_neg hlen]
      congr 1
      apply List.map_congr_left
      intro c hc
      have hle : P.length ≤ tr.mM := by
        have := (genFrom_length hP).2
        omega
      exact ih c (genTopo_childrenD_mem hs hP hle hc).1

theorem outVal_internal (tr : Traits) (hs : tr.mSource < tr.mN)
    (inp : Path → Value) (P : Path) (hgen : generated tr.mN tr.mM tr.mSource P)
    (hlen : P.length ≤ tr.mM) :
    outVal tr (genTopo tr.mN tr.mM tr.mSource) inp P
      = getMajorityVotes tr.getDefault
          ((((genTopo tr.mN tr.mM tr.mSource).children P).getD []).map
            (outVal tr (genTopo tr.mN tr.mM tr.mSource) inp)) := by
  unfold outVal
  have hfe : (tr.mM + 1) - P.length = ((tr.mM + 1) - (P.length + 1)) + 1 := by
    have := (genFrom_length hgen).1
    omega
  rw [hfe]
  simp only [outSpec]
  rw [if_neg (by omega)]
  congr 1
  apply List.map_congr_left
  intro c hc
  have hc2 := genTopo_childrenD_mem hs hgen hlen hc
  rw [hc2.2]

/-- The root path `[source]` is generated. -/
theorem generated_root (n m source : Nat) (hs : source < n) :
    generated n m source [source] := by
  refine ⟨[], rfl, by simp, ?_, by simp⟩
  intro x hx
  have : x = source := by simpa using hx
  subst this
  exact ⟨hs, by simp⟩

/-- `mPathsByRank[0][mSource].front()` is the root path `[source]`. -/
theorem genTopo_root (n m source : Nat) (hs : source < n) :
    ((genTopo n m source).pathsByRank 0 source).headD [] = [source] := by
  have hmem : [source] ∈ (genTopo n m source).pathsByRank 0 source := by
    rw [genTopo_pbr n m source hs]
    exact ⟨generated_root n m source hs, by simp, rfl⟩
  cases hl : (genTopo n m source).pathsByRank 0 source with
  | nil => rw [hl] at hmem; simp at hmem
  | cons a as =>
    have ha : a ∈ (genTopo n m source).pathsByRank 0 source := by
      rw [hl]
      exact List.mem_cons_self a as
    rw [genTopo_pbr n m source hs] at ha
    have : a = [source] := by
      have h1 := genFrom_eq_base ha.1 (by simpa using ha.2.1)
      simpa using h1
    simpa using this

end Byz

namespace Byz

/-!
### Generic shape of the two decision passes
-/

def passFold (step : NodeMap → Path → NodeMap) (paths : Nat → List Path) (n : Nat)
    (nm : NodeMap) : NodeMap :=
  (List.range n).foldl (fun nm i => (paths i).foldl step nm) nm

theorem leafPass_eq_passFold (tr : Traits) (topo : Topo) (nm : NodeMap) :
    leafPass tr topo nm = passFold leafStep (topo.pathsByRank tr.mM) tr.mN nm := rfl

theorem reductionPass_eq_passFold (tr : Traits) (topo : Topo) (r : Nat) (nm : NodeMap) :
    reductionPass tr topo r nm = passFold (majStep tr topo) (topo.pathsByRank r) tr.mN nm :=
  rfl

theorem passFold_preserve (step : NodeMap → Path → NodeMap) (paths : Nat → List Path)
    (n : Nat) (Q : NodeMap → Prop)
    (hstep : ∀ nm i p, i < n → p ∈ paths i → Q nm → Q (step nm p)) :
    ∀ nm, Q nm → Q (passFold step paths n nm) := by
  intro nm hQ
  unfold passFold
  refine foldl_preserve _ Q _ nm ?_ hQ
  intro nm' i hi hQ'
  refine foldl_preserve _ Q _ nm' ?_ hQ'
  intro nm'' p hp hQ''
  exact hstep nm'' i p (List.mem_range.mp hi) hp hQ''

theorem passFold_establish (step : NodeMap → Path → NodeMap) (paths : Nat → List Path)
    (n : Nat) (Inv Q : NodeMap → Prop) (i₀ : Nat) (p₀ : Path)
    (hi₀ : i₀ < n) (hp₀ : p₀ ∈ paths i₀)
    (hInvStep : ∀ nm i p, i < n → p ∈ paths i → Inv nm → Inv (step nm p))
    (est : ∀ nm, Inv nm → Q (step nm p₀))
    (pres : ∀ nm i p, i < n → p ∈ paths i → Q nm → Q (step nm p)) :
    ∀ nm, Inv nm → Q (passFold step paths n nm) := by
  intro nm hInv
  unfold passFold
  refine foldl_establish _ Inv Q i₀ _ nm (List.mem_range.mpr hi₀) ?_ hInv ?_ ?_
  · intro nm' i hi hInv'
    refine foldl_preserve _ Inv _ nm' ?_ hInv'
    intro nm'' p hp hInv''
    exact hInvStep nm'' i p (List.mem_range.mp hi) hp hInv''
  · intro nm' hInv'
    refine foldl_establish _ Inv Q p₀ _ nm' hp₀ ?_ hInv' est ?_
    · intro nm'' p hp hInv''
      exact hInvStep nm'' i₀ p hi₀ hp hInv''
    · intro nm'' p hp hQ''
      exact pres nm'' i₀ p hi₀ hp hQ''
  · intro nm' i hi hQ'
    refine foldl_preserve _ Q _ nm' ?_ hQ'
    intro nm'' p hp hQ''
    exact pres nm'' i p (List.mem_range.mp hi) hp hQ''

/-!
### Evaluating the two step functions
-/

theorem leafStep_eval (nm : NodeMap) (p : Path) (nd : Node)
    (h : NodeMap.find nm p = some nd) :
    leafStep nm p = NodeMap.set nm p ⟨nd.input_value, nd.input_value⟩ := by
  unfold leafStep
  rw [getOrInsert_of_found nm p nd h]

theorem leafStep_frame (nm : NodeMap) (p q : Path) (hq : q ≠ p) :
    NodeMap.find (leafStep nm p) q = NodeMap.find nm q := by
  unfold leafStep NodeMap.getOrInsert
  cases hf : NodeMap.find nm p with
  | some nd =>
    simp only
    rw [find_set_ne _ _ _ _ hq]
  | none =>
    simp only
    rw [find_set_ne _ _ _ _ hq, find_set_ne _ _ _ _ hq]

theorem collectVotes_mono (cs : List Path) (nm : NodeMap) (q : Path)
    (h : (NodeMap.find nm q).isSome) :
    (NodeMap.find (collectVotes cs nm).2 q).isSome := by
  induction cs generalizing nm with
  | nil => exact h
  | cons c rest ih =>
    simp only [collectVotes]
    exact ih _ (find_isSome_getOrInsert nm c q h)

theorem leafStep_complete (nm : NodeMap) (p q : Path)
    (h : (NodeMap.find nm q).isSome) :
    (NodeMap.find (leafStep nm p) q).isSome := by
  unfold leafStep
  exact find_isSome_set _ _ _ _ (find_isSome_getOrInsert nm p q h)

theorem majStep_complete (tr : Traits) (topo : Topo) (nm : NodeMap) (p q : Path)
    (h : (NodeMap.find nm q).isSome) :
    (NodeMap.find (majStep tr topo nm p) q).isSome := by
  unfold majStep getMajority
  refine find_isSome_set _ _ _ _ ?_
  exact collectVotes_mono _ _ _ (find_isSome_getOrInsert nm p q h)

theorem majStep_eval (tr : Traits) (topo : Topo) (nm : NodeMap) (p : Path) (nd : Node)
    (h : NodeMap.find nm p = some nd)
    (hc : ∀ c ∈ (topo.children p).getD [], (NodeMap.find nm c).isSome) :
    majStep tr topo nm p
      = NodeMap.set nm p
          ⟨nd.input_value,
            getMajorityVotes tr.getDefault
              (((topo.children p).getD []).map
                (fun c => ((NodeMap.find nm c).getD faultyNode).output_value))⟩ := by
  unfold majStep getMajority
  rw [getOrInsert_of_found nm p nd h]
  dsimp only
  rw [collectVotes_of_found _ _ hc]

theorem majStep_frame (tr : Traits) (topo : Topo) (nm : NodeMap) (p q : Path)
    (hq : q ≠ p)
    (hc : ∀ c ∈ (topo.children p).getD [], (NodeMap.find nm c).isSome) :
    NodeMap.find (majStep tr topo nm p) q = NodeMap.find nm q := by
  unfold majStep getMajority NodeMap.getOrInsert
  cases hf : NodeMap.find nm p with
  | some nd =>
    simp only
    rw [collectVotes_of_found _ _ hc]
    exact find_set_ne _ _ _ _ hq
  | none =>
    simp only
    have hc' : ∀ c ∈ (topo.children p).getD [],
        (NodeMap.find (NodeMap.set nm p faultyNode) c).isSome :=
      fun c hcm => find_isSome_set _ _ _ _ (hc c hcm)
    rw [collectVotes_of_found _ _ hc']
    rw [find_set_ne _ _ _ _ hq, find_set_ne _ _ _ _ hq]

end Byz

namespace Byz

/-- State of the decision passes after processing every rank ≥ `k`: generated
paths longer than `k` carry their final `(input, outVal)` node; all other
entries are exactly as before the decision started. -/
structure AfterPasses (tr : Traits) (nm0 : NodeMap) (k : Nat) (nmCur : NodeMap) : Prop where
  done : ∀ P, generated tr.mN tr.mM tr.mSource P → k + 1 ≤ P.length →
    NodeMap.find nmCur P
      = some ⟨inpOf nm0 P, outVal tr (genTopo tr.mN tr.mM tr.mSource) (inpOf nm0) P⟩
  pending : ∀ P, generated tr.mN tr.mM tr.mSource P → P.length ≤ k →
    NodeMap.find nmCur P = NodeMap.find nm0 P
  frame : ∀ P, ¬ generated tr.mN tr.mM tr.mSource P →
    NodeMap.find nmCur P = NodeMap.find nm0 P

/-- Invariant of the leaf pass: every generated entry is present and keeps
its original input value. -/
def LeafInv (tr : Traits) (nm0 nm : NodeMap) : Prop :=
  ∀ Q, generated tr.mN tr.mM tr.mSource Q →
    ∃ nd, NodeMap.find nm Q = some nd ∧ nd.input_value = inpOf nm0 Q

theorem leafInv_init (tr : Traits) (nm0 : NodeMap)
    (hcomp : ∀ P, generated tr.mN tr.mM tr.mSource P → (NodeMap.find nm0 P).isSome) :
    LeafInv tr nm0 nm0 := by
  intro Q hQ
  obtain ⟨nd, hnd⟩ := Option.isSome_iff_exists.mp (hcomp Q hQ)
  exact ⟨nd, hnd, by simp [inpOf, hnd]⟩

theorem leafInv_step (tr : Traits) (nm0 nm : NodeMap) (q : Path)
    (hq : generated tr.mN tr.mM tr.mSource q) (hInv : LeafInv tr nm0 nm) :
    LeafInv tr nm0 (leafStep nm q) := by
  obtain ⟨nd, hnd, hin⟩ := hInv q hq
  rw [leafStep_eval nm q nd hnd]
  intro Q hQ
  by_cases hQq : Q = q
  · subst hQq
    exact ⟨⟨nd.input_value, nd.input_value⟩, find_set_self _ _ _, hin⟩
  · obtain ⟨nd', hnd', hin'⟩ := hInv Q hQ
    exact ⟨nd', by rw [find_set_ne _ _ _ _ hQq]; exact hnd', hin'⟩

theorem leafPass_char (tr : Traits) (hs : tr.mSource < tr.mN) (nm0 : NodeMap)
    (hcomp : ∀ P, generated tr.mN tr.mM tr.mSource P → (NodeMap.find nm0 P).isSome) :
    AfterPasses tr nm0 tr.mM (leafPass tr (genTopo tr.mN tr.mM tr.mSource) nm0) := by
  rw [leafPass_eq_passFold]
  have hiter : ∀ i p, i < tr.mN →
      p ∈ (genTopo tr.mN tr.mM tr.mSource).pathsByRank tr.mM i →
      generated tr.mN tr.mM tr.mSource p ∧ p.length = tr.mM + 1 := by
    intro i p _ hp
    have h := (genTopo_pbr tr.mN tr.mM tr.mSource hs tr.mM i p).mp hp
    exact ⟨h.1, h.2.1⟩
  refine ⟨?_, ?_, ?_⟩
  · -- leaf entries get (input, input)
    intro P hP hlen
    have hlb := genFrom_length hP
    have hPlen : P.length = tr.mM + 1 := by omega
    have hPne : P ≠ [] := by
      intro h
      rw [h] at hPlen
      simp at hPlen
    obtain ⟨i, hi⟩ := Option.isSome_iff_exists.mp (List.getLast?_isSome.mpr hPne)
    have hin : i < tr.mN := (generated_nodup hP).2 i (mem_of_getLast? hi)
    have hPmem : P ∈ (genTopo tr.mN tr.mM tr.mSource).pathsByRank tr.mM i := by
      rw [genTopo_pbr tr.mN tr.mM tr.mSource hs]
      exact ⟨hP, hPlen, hi⟩
    rw [outVal_leaf tr _ _ P hPlen]
    refine passFold_establish _ _ _ (LeafInv tr nm0)
      (fun nm => NodeMap.find nm P = some ⟨inpOf nm0 P, inpOf nm0 P⟩)
      i P hin hPmem ?_ ?_ ?_ nm0 (leafInv_init tr nm0 hcomp)
    · intro nm i' q hi' hq hInv
      exact leafInv_step tr nm0 nm q (hiter i' q hi' hq).1 hInv
    · intro nm hInv
      obtain ⟨nd, hnd, hin'⟩ := hInv P hP
      rw [leafStep_eval nm P nd hnd, find_set_self, hin']
    · intro nm i' q hi' hq hQ
      by_cases hqP : q = P
      · subst hqP
        rw [leafStep_eval nm q _ hQ, find_set_self]
      · rw [leafStep_frame nm q P (fun h => hqP h.symm)]
        exact hQ
  · -- shorter generated paths untouched
    intro P hP hlen
    refine passFold_preserve _ _ _
      (fun nm => NodeMap.find nm P = NodeMap.find nm0 P) ?_ nm0 rfl
    intro nm i q hi hq hQ
    have hqlen := (hiter i q hi hq).2
    have : P ≠ q := by
      intro h
      rw [h] at hlen
      omega
    rw [leafStep_frame nm q P this]
    exact hQ
  · -- non-generated paths untouched
    intro P hP
    refine passFold_preserve _ _ _
      (fun nm => NodeMap.find nm P = NodeMap.find nm0 P) ?_ nm0 rfl
    intro nm i q hi hq hQ
    have : P ≠ q := fun h => hP (h ▸ (hiter i q hi hq).1)
    rw [leafStep_frame nm q P this]
    exact hQ

end Byz

namespace Byz

/-- Invariant of reduction pass `r`: entries of rank above `r` are final, and
every generated entry is present with its original input value. -/
def RedInv (tr : Traits) (nm0 : NodeMap) (r : Nat) (nm : NodeMap) : Prop :=
  (∀ Q, generated tr.mN tr.mM tr.mSource Q → r + 2 ≤ Q.length →
    NodeMap.find nm Q
      = some ⟨inpOf nm0 Q, outVal tr (genTopo tr.mN tr.mM tr.mSource) (inpOf nm0) Q⟩) ∧
  (∀ Q, generated tr.mN tr.mM tr.mSource Q →
    ∃ nd, NodeMap.find nm Q = some nd ∧ nd.input_value = inpOf nm0 Q)

theorem majStep_eval_red (tr : Traits) (hs : tr.mSource < tr.mN) (nm0 : NodeMap)
    (r : Nat) (nm : NodeMap) (hInv : RedInv tr nm0 r nm)
    (q : Path) (hq : generated tr.mN tr.mM tr.mSource q) (hqlen : q.length = r + 1)
    (hqm : q.length ≤ tr.mM) :
    majStep tr (genTopo tr.mN tr.mM tr.mSource) nm q
      = NodeMap.set nm q
          ⟨inpOf nm0 q, outVal tr (genTopo tr.mN tr.mM tr.mSource) (inpOf nm0) q⟩ := by
  obtain ⟨nd, hnd, hin⟩ := hInv.2 q hq
  have hch : ∀ c ∈ ((genTopo tr.mN tr.mM tr.mSource).children q).getD [],
      (NodeMap.find nm c).isSome := by
    intro c hc
    have h2 := genTopo_childrenD_mem hs hq hqm hc
    rw [hInv.1 c h2.1 (by omega)]
    rfl
  rw [majStep_eval tr _ nm q nd hnd hch]
  rw [hin]
  congr 2
  rw [outVal_internal tr hs (inpOf nm0) q hq hqm]
  congr 1
  apply List.map_congr_left
  intro c hc
  have h2 := genTopo_childrenD_mem hs hq hqm hc
  rw [hInv.1 c h2.1 (by omega)]
  rfl

theorem redInv_step (tr : Traits) (hs : tr.mSource < tr.mN) (nm0 : NodeMap)
    (r : Nat) (nm : NodeMap) (hInv : RedInv tr nm0 r nm)
    (q : Path) (hq : generated tr.mN tr.mM tr.mSource q) (hqlen : q.length = r + 1)
    (hqm : q.length ≤ tr.mM) :
    RedInv tr nm0 r (majStep tr (genTopo tr.mN tr.mM tr.mSource) nm q) := by
  rw [majStep_eval_red tr hs nm0 r nm hInv q hq hqlen hqm]
  constructor
  · intro Q hQ hQl
    rw [find_set_ne _ _ _ _ (by intro h; rw [h] at hQl; omega)]
    exact hInv.1 Q hQ hQl
  · intro Q hQ
    by_cases hQq : Q = q
    · subst hQq
      exact ⟨_, find_set_self _ _ _, rfl⟩
    · obtain ⟨nd, hnd, hin⟩ := hInv.2 Q hQ
      exact ⟨nd, by rw [find_set_ne _ _ _ _ hQq]; exact hnd, hin⟩

theorem reductionPass_char (tr : Traits) (hs : tr.mSource < tr.mN) (nm0 : NodeMap)
    (hcomp : ∀ P, generated tr.mN tr.mM tr.mSource P → (NodeMap.find nm0 P).isSome)
    (r : Nat) (hr : r + 1 ≤ tr.mM) (nmCur : NodeMap)
    (h : AfterPasses tr nm0 (r + 1) nmCur) :
    AfterPasses tr nm0 r
      (reductionPass tr (genTopo tr.mN tr.mM tr.mSource) r nmCur) := by
  rw [reductionPass_eq_passFold]
  have hiter : ∀ i p, i < tr.mN →
      p ∈ (genTopo tr.mN tr.mM tr.mSource).pathsByRank r i →
      generated tr.mN tr.mM tr.mSource p ∧ p.length = r + 1 := by
    intro i p _ hp
    have hm := (genTopo_pbr tr.mN tr.mM tr.mSource hs r i p).mp hp
    exact ⟨hm.1, hm.2.1⟩
  have hInv0 : RedInv tr nm0 r nmCur := by
    constructor
    · intro Q hQ hQl
      exact h.done Q hQ (by omega)
    · intro Q hQ
      by_cases hlen : r + 2 ≤ Q.length
      · exact ⟨_, h.done Q hQ (by omega), rfl⟩
      · have hp := h.pending Q hQ (by omega)
        obtain ⟨nd, hnd⟩ := Option.isSome_iff_exists.mp (hcomp Q hQ)
        exact ⟨nd, by rw [hp]; exact hnd, by simp [inpOf, hnd]⟩
  have hInvStep : ∀ nm i q, i < tr.mN →
      q ∈ (genTopo tr.mN tr.mM tr.mSource).pathsByRank r i →
      RedInv tr nm0 r nm →
      RedInv tr nm0 r (majStep tr (genTopo tr.mN tr.mM tr.mSource) nm q) := by
    intro nm i q hi hq hInv
    have h2 := hiter i q hi hq
    exact redInv_step tr hs nm0 r nm hInv q h2.1 h2.2 (by omega)
  refine ⟨?_, ?_, ?_⟩
  · intro P hP hlen
    by_cases hPr : P.length = r + 1
    · have hPne : P ≠ [] := by
        intro hh
        rw [hh] at hPr
        simp at hPr
      obtain ⟨i, hi⟩ := Option.isSome_iff_exists.mp (List.getLast?_isSome.mpr hPne)
      have hin : i < tr.mN := (generated_nodup hP).2 i (mem_of_getLast? hi)
      have hPmem : P ∈ (genTopo tr.mN tr.mM tr.mSource).pathsByRank r i := by
        rw [genTopo_pbr tr.mN tr.mM tr.mSource hs]
        exact ⟨hP, hPr, hi⟩
      have hfinal := passFold_establish _ _ _ (RedInv tr nm0 r)
        (fun nm => RedInv tr nm0 r nm ∧
          NodeMap.find nm P = some ⟨inpOf nm0 P,
            outVal tr (genTopo tr.mN tr.mM tr.mSource) (inpOf nm0) P⟩)
        i P hin hPmem hInvStep ?_ ?_ nmCur hInv0
      · exact hfinal.2
      · intro nm hInv
        refine ⟨hInvStep nm i P hin hPmem hInv, ?_⟩
        rw [majStep_eval_red tr hs nm0 r nm hInv P hP hPr (by omega), find_set_self]
      · intro nm i' q hi' hq hQ
        have h2 := hiter i' q hi' hq
        refine ⟨hInvStep nm i' q hi' hq hQ.1, ?_⟩
        rw [majStep_eval_red tr hs nm0 r nm hQ.1 q h2.1 h2.2 (by omega)]
        by_cases hqP : P = q
        · rw [hqP, find_set_self]
        · rw [find_set_ne _ _ _ _ hqP]
          exact hQ.2
    · have hfinal := passFold_preserve (majStep tr (genTopo tr.mN tr.mM tr.mSource)) ((genTopo tr.mN tr.mM tr.mSource).pathsByRank r) tr.mN
        (fun nm => RedInv tr nm0 r nm ∧
          NodeMap.find nm P = some ⟨inpOf nm0 P,
            outVal tr (genTopo tr.mN tr.mM tr.mSource) (inpOf nm0) P⟩)
        ?_ nmCur ⟨hInv0, h.done P hP (by omega)⟩
      · exact hfinal.2
      · intro nm i q hi hq hQ
        have h2 := hiter i q hi hq
        refine ⟨hInvStep nm i q hi hq hQ.1, ?_⟩
        rw [majStep_eval_red tr hs nm0 r nm hQ.1 q h2.1 h2.2 (by omega),
          find_set_ne _ _ _ _ (by intro hh; rw [hh] at hPr; omega)]
        exact hQ.2
  · intro P hP hlen
    have hfinal := passFold_preserve (majStep tr (genTopo tr.mN tr.mM tr.mSource)) ((genTopo tr.mN tr.mM tr.mSource).pathsByRank r) tr.mN
      (fun nm => RedInv tr nm0 r nm ∧ NodeMap.find nm P = NodeMap.find nm0 P)
      ?_ nmCur ⟨hInv0, h.pending P hP (by omega)⟩
    · exact hfinal.2
    · intro nm i q hi hq hQ
      have h2 := hiter i q hi hq
      refine ⟨hInvStep nm i q hi hq hQ.1, ?_⟩
      rw [majStep_eval_red tr hs nm0 r nm hQ.1 q h2.1 h2.2 (by omega),
        find_set_ne _ _ _ _ (by intro hh; rw [hh] at hlen; omega)]
      exact hQ.2
  · intro P hP
    have hfinal := passFold_preserve (majStep tr (genTopo tr.mN tr.mM tr.mSource)) ((genTopo tr.mN tr.mM tr.mSource).pathsByRank r) tr.mN
      (fun nm => RedInv tr nm0 r nm ∧ NodeMap.find nm P = NodeMap.find nm0 P)
      ?_ nmCur ⟨hInv0, h.frame P hP⟩
    · exact hfinal.2
    · intro nm i q hi hq hQ
      have h2 := hiter i q hi hq
      refine ⟨hInvStep nm i q hi hq hQ.1, ?_⟩
      rw [majStep_eval_red tr hs nm0 r nm hQ.1 q h2.1 h2.2 (by omega),
        find_set_ne _ _ _ _ (fun hh => hP (by rw [hh]; exact h2.1))]
      exact hQ.2

end Byz

namespace Byz

theorem reduction_rounds (tr : Traits) (hs : tr.mSource < tr.mN) (nm0 : NodeMap)
    (hcomp : ∀ P, generated tr.mN tr.mM tr.mSource P → (NodeMap.find nm0 P).isSome) :
    ∀ (k : Nat), k ≤ tr.mM → ∀ nmCur, AfterPasses tr nm0 k nmCur →
      AfterPasses tr nm0 0
        ((List.range k).reverse.foldl
          (fun nm r => reductionPass tr (genTopo tr.mN tr.mM tr.mSource) r nm) nmCur) := by
  intro k
  induction k with
  | zero =>
    intro _ nmCur h
    simpa using h
  | succ k' ih =>
    intro hk nmCur h
    rw [List.range_succ, List.reverse_append]
    simp only [List.reverse_cons, List.reverse_nil, List.nil_append, List.singleton_append,
      List.foldl_cons]
    exact ih (by omega) _ (reductionPass_char tr hs nm0 hcomp k' (by omega) nmCur h)

/-- Characterization of `Decide` for a non-source participant whose map
contains every generated path: the decision is `outVal` at the root, every
generated entry becomes `(input, outVal)`, and every other entry is
untouched. -/
theorem decideProc_char (tr : Traits) (hs : tr.mSource < tr.mN) (pid : Nat)
    (hpid : pid ≠ tr.mSource) (nm : NodeMap)
    (hcomp : ∀ P, generated tr.mN tr.mM tr.mSource P → (NodeMap.find nm P).isSome) :
    (decideProc tr (genTopo tr.mN tr.mM tr.mSource) pid nm).1
      = outVal tr (genTopo tr.mN tr.mM tr.mSource) (inpOf nm) [tr.mSource] ∧
    AfterPasses tr nm 0 (decideProc tr (genTopo tr.mN tr.mM tr.mSource) pid nm).2 := by
  have hap1 := leafPass_char tr hs nm hcomp
  have hap0 := reduction_rounds tr hs nm hcomp tr.mM le_rfl _ hap1
  have hroot := genTopo_root tr.mN tr.mM tr.mSource hs
  have hgr := generated_root tr.mN tr.mM tr.mSource hs
  have hfind := hap0.done [tr.mSource] hgr (by simp)
  unfold decideProc
  rw [if_neg hpid]
  dsimp only
  rw [hroot, getOrInsert_of_found _ _ _ hfind]
  exact ⟨rfl, hap0⟩

/-- Claim C7: after the messaging rounds, `Decide` is idempotent — a second
call returns the same value as the first, and afterwards every node that
existed before the first call still holds its original input value. -/
theorem decide_idempotent (tr : Traits) (hs : tr.mSource < tr.mN)
    (pid : Nat) (hpid : pid < tr.mN)
    (st st1 st2 : NodeMap) (v1 v2 : Value)
    (hst : st = (runAll tr (genTopo tr.mN tr.mM tr.mSource)).getD pid emptyMap)
    (h1 : decideProc tr (genTopo tr.mN tr.mM tr.mSource) pid st = (v1, st1))
    (h2 : decideProc tr (genTopo tr.mN tr.mM tr.mSource) pid st1 = (v2, st2)) :
    v2 = v1 ∧
    ∀ P nd, NodeMap.find st P = some nd →
      ∃ nd', NodeMap.find st2 P = some nd' ∧ nd'.input_value = nd.input_value := by
  subst hst
  by_cases hps : pid = tr.mSource
  · subst hps
    have hrw : runAll tr (genTopo tr.mN tr.mM tr.mSource)
        = runRounds tr (genTopo tr.mN tr.mM tr.mSource) (tr.mM + 1) := rfl
    rw [hrw, (runRounds_frame tr hs (tr.mM + 1)).1] at h1 ⊢
    rw [decideProc_source] at h1
    have hv1 : tr.getSourceValue.input_value = v1 := congrArg Prod.fst h1
    have hst1 : seedMap tr = st1 := congrArg Prod.snd h1
    rw [← hst1, decideProc_source] at h2
    have hv2 : tr.getSourceValue.input_value = v2 := congrArg Prod.fst h2
    have hst2 : seedMap tr = st2 := congrArg Prod.snd h2
    refine ⟨by rw [← hv1, ← hv2], ?_⟩
    intro P nd hnd
    exact ⟨nd, by rw [← hst2]; exact hnd, rfl⟩
  · have hcomp : ∀ P, generated tr.mN tr.mM tr.mSource P →
        (NodeMap.find ((runAll tr (genTopo tr.mN tr.mM tr.mSource)).getD pid emptyMap)
          P).isSome :=
      fun P hP => runAll_complete tr hs pid hpid hps P hP
    have hc1 := decideProc_char tr hs pid hps _ hcomp
    rw [h1] at hc1
    dsimp only at hc1
    have hgen1 : ∀ P, generated tr.mN tr.mM tr.mSource P → 1 ≤ P.length := by
      intro P hP
      have := (genFrom_length hP).1
      simpa using this
    have hcomp1 : ∀ P, generated tr.mN tr.mM tr.mSource P →
        (NodeMap.find st1 P).isSome := by
      intro P hP
      rw [hc1.2.done P hP (by simpa using hgen1 P hP)]
      rfl
    have hc2 := decideProc_char tr hs pid hps st1 hcomp1
    rw [h2] at hc2
    dsimp only at hc2
    have hinp : ∀ P, generated tr.mN tr.mM tr.mSource P →
        inpOf st1 P
          = inpOf ((runAll tr (genTopo tr.mN tr.mM tr.mSource)).getD pid emptyMap) P := by
      intro P hP
      rw [inpOf, hc1.2.done P hP (by simpa using hgen1 P hP)]
      rfl
    refine ⟨?_, ?_⟩
    · rw [hc2.1, hc1.1]
      unfold outVal
      exact outSpec_congr tr hs _ _ hinp _ [tr.mSource]
        (generated_root tr.mN tr.mM tr.mSource hs)
    · intro P nd hnd
      by_cases hPg : generated tr.mN tr.mM tr.mSource P
      · refine ⟨_, hc2.2.done P hPg (by simpa using hgen1 P hPg), ?_⟩
        dsimp only
        rw [hinp P hPg, inpOf, hnd]
        rfl
      · refine ⟨nd, ?_, rfl⟩
        rw [hc2.2.frame P hPg, hc1.2.frame P hPg]
        exact hnd

set_option maxRecDepth 1000000 in
/-- Witness for C7: the second `Decide` of participant 0 in the hard-coded
run returns the same value as the first. -/
theorem decide_idempotent_witness :
    (decideProc refTraits (genTopo 7 2 3) 0
        ((decideProc refTraits (genTopo 7 2 3) 0
          ((runAll refTraits (genTopo 7 2 3)).getD 0 emptyMap)).2)).1
      = (decideProc refTraits (genTopo 7 2 3) 0
          ((runAll refTraits (genTopo 7 2 3)).getD 0 emptyMap)).1 :=
  (decide_idempotent refTraits (by decide) 0 (by decide) _ _ _ _ _ rfl rfl rfl).1

end Byz

namespace Byz

/-!
### The checked decision never misses a lookup (C9)
-/

def Complete (tr : Traits) (nm : NodeMap) : Prop :=
  ∀ P, generated tr.mN tr.mM tr.mSource P → (NodeMap.find nm P).isSome

theorem leafPass_complete (tr : Traits) (topo : Topo) (nm : NodeMap)
    (h : Complete tr nm) : Complete tr (leafPass tr topo nm) := by
  rw [leafPass_eq_passFold]
  refine passFold_preserve _ _ _ (Complete tr) ?_ nm h
  intro nm' _ p _ _ hC P hP
  exact leafStep_complete nm' p P (hC P hP)

theorem reductionPass_complete (tr : Traits) (topo : Topo) (r : Nat) (nm : NodeMap)
    (h : Complete tr nm) : Complete tr (reductionPass tr topo r nm) := by
  rw [reductionPass_eq_passFold]
  refine passFold_preserve _ _ _ (Complete tr) ?_ nm h
  intro nm' _ p _ _ hC P hP
  exact majStep_complete tr topo nm' p P (hC P hP)

theorem collectVotesChecked_of_found (cs : List Path) (nm : NodeMap)
    (h : ∀ c ∈ cs, (NodeMap.find nm c).isSome) :
    collectVotesChecked cs nm
      = some (cs.map (fun c => ((NodeMap.find nm c).getD faultyNode).output_value)) := by
  induction cs with
  | nil => rfl
  | cons c rest ih =>
    obtain ⟨nd, hnd⟩ := Option.isSome_iff_exists.mp (h c (List.mem_cons_self c rest))
    have hrest := ih (fun c' hc' => h c' (List.mem_cons_of_mem c hc'))
    simp [collectVotesChecked, hnd, hrest]

theorem leafStepChecked_eq (nm : NodeMap) (p : Path)
    (h : (NodeMap.find nm p).isSome) :
    leafStepChecked nm p = some (leafStep nm p) := by
  obtain ⟨nd, hnd⟩ := Option.isSome_iff_exists.mp h
  rw [leafStep_eval nm p nd hnd]
  simp [leafStepChecked, hnd]

theorem majStepChecked_eq (tr : Traits) (topo : Topo) (nm : NodeMap) (p : Path)
    (hp : (NodeMap.find nm p).isSome)
    (hc : ∀ c ∈ (topo.children p).getD [], (NodeMap.find nm c).isSome) :
    majStepChecked tr topo nm p = some (majStep tr topo nm p) := by
  obtain ⟨nd, hnd⟩ := Option.isSome_iff_exists.mp hp
  rw [majStep_eval tr topo nm p nd hnd hc]
  simp [majStepChecked, hnd, collectVotesChecked_of_found _ _ hc]

theorem optFold_eq (Inv : NodeMap → Prop) (f : NodeMap → Path → Option NodeMap)
    (g : NodeMap → Path → NodeMap) (l : List Path)
    (hfg : ∀ nm p, p ∈ l → Inv nm → f nm p = some (g nm p))
    (hInv : ∀ nm p, p ∈ l → Inv nm → Inv (g nm p)) :
    ∀ nm, Inv nm → optFold f nm l = some (l.foldl g nm) := by
  induction l with
  | nil => intro nm _; rfl
  | cons p rest ih =>
    intro nm h
    simp only [optFold, List.foldl_cons]
    rw [hfg nm p (List.mem_cons_self p rest) h]
    exact ih (fun nm' p' hp' => hfg nm' p' (List.mem_cons_of_mem p hp'))
      (fun nm' p' hp' => hInv nm' p' (List.mem_cons_of_mem p hp'))
      (g nm p) (hInv nm p (List.mem_cons_self p rest) h)

theorem optPass_eq (Inv : NodeMap → Prop) (f : NodeMap → Path → Option NodeMap)
    (g : NodeMap → Path → NodeMap) (paths : Nat → List Path) (l : List Nat)
    (hfg : ∀ nm i p, i ∈ l → p ∈ paths i → Inv nm → f nm p = some (g nm p))
    (hInv : ∀ nm i p, i ∈ l → p ∈ paths i → Inv nm → Inv (g nm p)) :
    ∀ nm, Inv nm →
      optPass f paths nm l = some (l.foldl (fun nm i => (paths i).foldl g nm) nm) := by
  induction l with
  | nil => intro nm _; rfl
  | cons i rest ih =>
    intro nm h
    simp only [optPass, List.foldl_cons]
    rw [optFold_eq Inv f g (paths i)
      (fun nm' p' hp' => hfg nm' i p' (List.mem_cons_self i rest) hp')
      (fun nm' p' hp' => hInv nm' i p' (List.mem_cons_self i rest) hp') nm h]
    have hInner : Inv ((paths i).foldl g nm) := by
      refine foldl_preserve _ Inv _ nm ?_ h
      intro nm' p' hp' h'
      exact hInv nm' i p' (List.mem_cons_self i rest) hp' h'
    exact ih (fun nm' i' p' hi' => hfg nm' i' p' (List.mem_cons_of_mem i hi'))
      (fun nm' i' p' hi' => hInv nm' i' p' (List.mem_cons_of_mem i hi'))
      _ hInner

theorem optRounds_eq (tr : Traits) (hs : tr.mSource < tr.mN) (l : List Nat)
    (hl : ∀ r ∈ l, r + 1 ≤ tr.mM) :
    ∀ nm, Complete tr nm →
      optRounds tr (genTopo tr.mN tr.mM tr.mSource) nm l
        = some (l.foldl
            (fun nm r => reductionPass tr (genTopo tr.mN tr.mM tr.mSource) r nm) nm) := by
  induction l with
  | nil => intro nm _; rfl
  | cons r rest ih =>
    intro nm h
    simp only [optRounds, List.foldl_cons]
    have hstep : optPass (majStepChecked tr (genTopo tr.mN tr.mM tr.mSource))
        ((genTopo tr.mN tr.mM tr.mSource).pathsByRank r) nm (List.range tr.mN)
        = some (reductionPass tr (genTopo tr.mN tr.mM tr.mSource) r nm) := by
      rw [reductionPass_eq_passFold]
      refine optPass_eq (Complete tr) _ _ _ _ ?_ ?_ nm h
      · intro nm' i p _ hp hC
        have hg := (genTopo_pbr tr.mN tr.mM tr.mSource hs r i p).mp hp
        have hpm : p.length ≤ tr.mM := by
          have := hl r (List.mem_cons_self r rest)
          omega
        refine majStepChecked_eq tr _ nm' p (hC p hg.1) ?_
        intro c hcm
        exact hC c (genTopo_childrenD_mem hs hg.1 (by omega) hcm).1
      · intro nm' _ p _ _ hC P hP
        exact majStep_complete tr _ nm' p P (hC P hP)
    rw [hstep]
    exact ih (fun r' hr' => hl r' (List.mem_cons_of_mem r hr')) _
      (reductionPass_complete tr _ r nm h)

end Byz

namespace Byz

/-- Claim C9: in a conforming run (all rounds sent in schedule order before
deciding), every node-map lookup of the decision phase — leaf pass,
reduction passes, root read, and the source's root read — finds an entry
that was previously seeded or received: the checked decision, which aborts
on any missing lookup, succeeds and agrees with `Decide`. -/
theorem decideChecked_agrees (tr : Traits) (hs : tr.mSource < tr.mN)
    (pid : Nat) (hpid : pid < tr.mN) :
    decideChecked tr (genTopo tr.mN tr.mM tr.mSource) pid
        ((runAll tr (genTopo tr.mN tr.mM tr.mSource)).getD pid emptyMap)
      = some ((decideProc tr (genTopo tr.mN tr.mM tr.mSource) pid
          ((runAll tr (genTopo tr.mN tr.mM tr.mSource)).getD pid emptyMap)).1) := by
  by_cases hps : pid = tr.mSource
  · subst hps
    have hrw : (runAll tr (genTopo tr.mN tr.mM tr.mSource)).getD tr.mSource emptyMap
        = seedMap tr := (runRounds_frame tr hs (tr.mM + 1)).1
    rw [hrw, decideProc_source]
    unfold decideChecked
    rw [if_pos rfl, seedMap_find_nil]
    rfl
  · have hcomp : Complete tr
        ((runAll tr (genTopo tr.mN tr.mM tr.mSource)).getD pid emptyMap) :=
      fun P hP => runAll_complete tr hs pid hpid hps P hP
    set st := (runAll tr (genTopo tr.mN tr.mM tr.mSource)).getD pid emptyMap with hstdef
    have hap1 := leafPass_char tr hs st hcomp
    have hap0 := reduction_rounds tr hs st hcomp tr.mM le_rfl _ hap1
    have hchar := decideProc_char tr hs pid hps st hcomp
    rw [hchar.1]
    unfold decideChecked
    rw [if_neg hps]
    have hleaf : optPass leafStepChecked
        ((genTopo tr.mN tr.mM tr.mSource).pathsByRank tr.mM) st (List.range tr.mN)
        = some (leafPass tr (genTopo tr.mN tr.mM tr.mSource) st) := by
      rw [leafPass_eq_passFold]
      refine optPass_eq (Complete tr) _ _ _ _ ?_ ?_ st hcomp
      · intro nm' i p _ hp hC
        have hg := (genTopo_pbr tr.mN tr.mM tr.mSource hs tr.mM i p).mp hp
        exact leafStepChecked_eq nm' p (hC p hg.1)
      · intro nm' _ p _ _ hC P hP
        exact leafStep_complete nm' p P (hC P hP)
    have hround_lt : ∀ r ∈ (List.range tr.mM).reverse, r + 1 ≤ tr.mM := by
      intro r hr
      have := List.mem_range.mp (List.mem_reverse.mp hr)
      omega
    have hrounds := optRounds_eq tr hs (List.range tr.mM).reverse hround_lt
      (leafPass tr (genTopo tr.mN tr.mM tr.mSource) st)
      (leafPass_complete tr _ st hcomp)
    have hfind := hap0.done [tr.mSource] (generated_root tr.mN tr.mM tr.mSource hs) (by simp)
    simp only [hleaf, hrounds, genTopo_root tr.mN tr.mM tr.mSource hs, hfind]

/-- Witness for C9: the checked decision of participant 0 of the hard-coded
run succeeds and returns the decision of `Decide`. -/
theorem decideChecked_agrees_witness :
    decideChecked refTraits (genTopo 7 2 3) 0
        ((runAll refTraits (genTopo 7 2 3)).getD 0 emptyMap)
      = some ((decideProc refTraits (genTopo 7 2 3) 0
          ((runAll refTraits (genTopo 7 2 3)).getD 0 emptyMap)).1) :=
  decideChecked_agrees refTraits (by decide) 0 (by decide)

end Byz
